import Mathlib

/-!
# Verification of the `impl_twice` template-duplication rewriter

This file embeds the `impl_twice!` macro of `src/src/lib.rs` (a
`macro_rules!` token-pattern matcher and rewriter) and proves the
specification's claims about it.

## Token model

The macro operates on Rust token trees.  We model a token tree as:
* an atomic token (`ident` covers identifiers *and* keywords, since the
  `ident` fragment matcher accepts keywords; `punct` covers punctuation
  such as `,` `<` `>` `::` `:`; `lifetime` and `lit` cover the remaining
  atomic tokens, a lifetime carrying its name without the leading tick), or
* a delimited group `( … )`, `[ … ]`, `{ … }`.

A brace group carries its contents already split into a sequence of
items (`List (List Tok)`): the macro's body matcher `{ $($content:item)* }`
splits the brace contents into items, and re-emitting `$($content)*`
concatenates them back; since item parsing is deterministic, carrying the
split loses no information for inputs whose brace groups are item
sequences — the only inputs on which the macro's body productions match.
-/

inductive Tok where
  | ident : String → Tok
  | punct : String → Tok
  | lifetime : String → Tok
  | lit : String → Tok
  | parens : List Tok → Tok
  | brackets : List Tok → Tok
  | braces : List (List Tok) → Tok

mutual
/-- Structural boolean equality on token trees. -/
def tokBEq : Tok → Tok → Bool
  | .ident a, .ident b => a == b
  | .punct a, .punct b => a == b
  | .lifetime a, .lifetime b => a == b
  | .lit a, .lit b => a == b
  | .parens a, .parens b => tokListBEq a b
  | .brackets a, .brackets b => tokListBEq a b
  | .braces a, .braces b => tokListListBEq a b
  | _, _ => false

/-- Structural boolean equality on token lists. -/
def tokListBEq : List Tok → List Tok → Bool
  | [], [] => true
  | a :: as, b :: bs => tokBEq a b && tokListBEq as bs
  | _, _ => false

/-- Structural boolean equality on item lists. -/
def tokListListBEq : List (List Tok) → List (List Tok) → Bool
  | [], [] => true
  | a :: as, b :: bs => tokListBEq a b && tokListListBEq as bs
  | _, _ => false
end

mutual
theorem tokBEq_iff : ∀ a b : Tok, tokBEq a b = true ↔ a = b
  | .ident a, .ident b => by simp [tokBEq]
  | .punct a, .punct b => by simp [tokBEq]
  | .lifetime a, .lifetime b => by simp [tokBEq]
  | .lit a, .lit b => by simp [tokBEq]
  | .parens a, .parens b => by simp [tokBEq, tokListBEq_iff a b]
  | .brackets a, .brackets b => by simp [tokBEq, tokListBEq_iff a b]
  | .braces a, .braces b => by simp [tokBEq, tokListListBEq_iff a b]
  | .ident _, .punct _ | .ident _, .lifetime _ | .ident _, .lit _
  | .ident _, .parens _ | .ident _, .brackets _ | .ident _, .braces _
  | .punct _, .ident _ | .punct _, .lifetime _ | .punct _, .lit _
  | .punct _, .parens _ | .punct _, .brackets _ | .punct _, .braces _
  | .lifetime _, .ident _ | .lifetime _, .punct _ | .lifetime _, .lit _
  | .lifetime _, .parens _ | .lifetime _, .brackets _ | .lifetime _, .braces _
  | .lit _, .ident _ | .lit _, .punct _ | .lit _, .lifetime _
  | .lit _, .parens _ | .lit _, .brackets _ | .lit _, .braces _
  | .parens _, .ident _ | .parens _, .punct _ | .parens _, .lifetime _
  | .parens _, .lit _ | .parens _, .brackets _ | .parens _, .braces _
  | .brackets _, .ident _ | .brackets _, .punct _ | .brackets _, .lifetime _
  | .brackets _, .lit _ | .brackets _, .parens _ | .brackets _, .braces _
  | .braces _, .ident _ | .braces _, .punct _ | .braces _, .lifetime _
  | .braces _, .lit _ | .braces _, .parens _ | .braces _, .brackets _ => by
    simp [tokBEq]

theorem tokListBEq_iff : ∀ a b : List Tok, tokListBEq a b = true ↔ a = b
  | [], [] => by simp [tokListBEq]
  | a :: as, b :: bs => by
    simp [tokListBEq, tokBEq_iff a b, tokListBEq_iff as bs]
  | [], _ :: _ => by simp [tokListBEq]
  | _ :: _, [] => by simp [tokListBEq]

theorem tokListListBEq_iff : ∀ a b : List (List Tok), tokListListBEq a b = true ↔ a = b
  | [], [] => by simp [tokListListBEq]
  | a :: as, b :: bs => by
    simp [tokListListBEq, tokListBEq_iff a b, tokListListBEq_iff as bs]
  | [], _ :: _ => by simp [tokListListBEq]
  | _ :: _, [] => by simp [tokListListBEq]
end

instance : DecidableEq Tok := fun a b => decidable_of_iff _ (tokBEq_iff a b)

/-!
## Data model

One comma-separated element of a header's target list, as matched by the
main production of `impl_twice!` (src/src/lib.rs lines 219–224):
`$name:ident $(<$($name_param:tt),*>)? $(for $ename:ident $(<$($ename_param:tt),*>)?)?`.
When the `for` part is present, `name`/`name_param` name the trait being
implemented and `ename`/`ename_param` the target type; otherwise
`name`/`name_param` name the target type of a plain inherent block.
-/

structure TargetSpec where
  name : String
  name_param : Option (List Tok)
  ename : Option (String × Option (List Tok))
deriving DecidableEq

/-- One header of a duplication group (lines 218–225 / 227–234):
`impl $(<$($gen_args:tt),*>)? first $(, more)* $(where ($($where_args:tt)*))?`. -/
structure Header where
  gen_args : Option (List Tok)
  first : TargetSpec
  more : List TargetSpec
  where_args : Option (List Tok)
deriving DecidableEq

/-- One duplication group: one or more headers followed by a braced body
of items (lines 217–238). -/
structure DupGroup where
  first_header : Header
  more_headers : List Header
  content : List (List Tok)
deriving DecidableEq

/-!
## Serialization

These functions render the structured data back to the exact token
sequences the productions of `impl_twice!` match.
-/

/-- Tokens `, t₁ , t₂ …` — the tail of a comma-separated generic-argument list. -/
def serialGenTail : List Tok → List Tok
  | [] => []
  | t :: ts => Tok.punct "," :: t :: serialGenTail ts

/-- Tokens `t₀ , t₁ , …` — a comma-separated generic-argument list (each element
a single token tree, as matched by `$($gen_args:tt),*`). -/
def serialGenListInner : List Tok → List Tok
  | [] => []
  | t :: ts => t :: serialGenTail ts

/-- Tokens `<t₀ , t₁ , …>` when present, nothing when absent —
`$(<$($gen_args:tt),*>)?`. -/
def serialGens : Option (List Tok) → List Tok
  | none => []
  | some ts => Tok.punct "<" :: serialGenListInner ts ++ [Tok.punct ">"]

/-- Tokens `for ename <…>?` when present — the optional trait-target part. -/
def serialForPart : Option (String × Option (List Tok)) → List Tok
  | none => []
  | some (en, ep) => Tok.ident "for" :: Tok.ident en :: serialGens ep

/-- Tokens `name <…>? (for ename <…>?)?` — one target-list element. -/
def serialTarget (e : TargetSpec) : List Tok :=
  Tok.ident e.name :: serialGens e.name_param ++ serialForPart e.ename

/-- Tokens `, e₁ , e₂ …` — the remaining target-list elements. -/
def serialMoreTargets : List TargetSpec → List Tok
  | [] => []
  | e :: es => Tok.punct "," :: serialTarget e ++ serialMoreTargets es

/-- Tokens `e₀ , e₁ , …` — a target list with no leading comma (used by the
recursive invocation the rewriter emits for the remaining targets). -/
def serialTargetList : List TargetSpec → List Tok
  | [] => []
  | e :: es => serialTarget e ++ serialMoreTargets es

/-- Tokens `where ( … )` when present — `$(where ($($where_args:tt)*))?`. -/
def serialWhereParens : Option (List Tok) → List Tok
  | none => []
  | some ws => [Tok.ident "where", Tok.parens ws]

/-- Tokens `where …` (parentheses stripped) as emitted into an expansion —
`$(where $($where_args)*)?` on line 241. -/
def serialWhereBare : Option (List Tok) → List Tok
  | none => []
  | some ws => Tok.ident "where" :: ws

/-- The token sequence of one header. -/
def serialHeader (h : Header) : List Tok :=
  Tok.ident "impl" :: serialGens h.gen_args ++ serialTarget h.first ++
    serialMoreTargets h.more ++ serialWhereParens h.where_args

/-- The token sequence of a list of headers. -/
def serialHeaders : List Header → List Tok
  | [] => []
  | h :: hs => serialHeader h ++ serialHeaders hs

/-- The token sequence of one duplication group. -/
def serialGroup (g : DupGroup) : List Tok :=
  serialHeader g.first_header ++ serialHeaders g.more_headers ++
    [Tok.braces g.content]

/-- The token sequence of a whole invocation: zero or more groups. -/
def serialProgram : List DupGroup → List Tok
  | [] => []
  | g :: gs => serialGroup g ++ serialProgram gs

/-!
## The pattern matcher

`macro_rules!` matching for the patterns of `impl_twice!` is driven by a
single token of lookahead: every optional fragment (`$(…)?`) and every
repetition (`$(…)*`) of the source starts with a distinct literal token
(`<`, `for`, `,`, `where`, `impl`), so the declarative matcher's
behaviour coincides with the deterministic recursive-descent functions
below.  (The only divergence is the degenerate case of a generic
parameter that is itself the single token `>`, where the `tt` fragment
could swallow the closing `>`; the lookahead resolution below closes the
list instead.  The well-formedness side conditions used by the theorems
exclude that token, so no statement in this file depends on it.)
-/

/-- After the opening `<` and one parsed element: `(, tt)* >`. -/
def parseGenTail : List Tok → Option (List Tok × List Tok)
  | Tok.punct ">" :: rest => some ([], rest)
  | Tok.punct "," :: t :: rest =>
    (parseGenTail rest).bind fun p => some (t :: p.1, p.2)
  | _ => none

/-- After the opening `<`: `$($gen_args:tt),* >`. -/
def parseGenList : List Tok → Option (List Tok × List Tok)
  | Tok.punct ">" :: rest => some ([], rest)
  | t :: rest => (parseGenTail rest).bind fun p => some (t :: p.1, p.2)
  | [] => none

/-- Fragment `$(<$($gen_args:tt),*>)?` — an optional angle-bracketed list. -/
def parseGenerics : List Tok → Option (Option (List Tok) × List Tok)
  | Tok.punct "<" :: rest =>
    (parseGenList rest).bind fun p => some (some p.1, p.2)
  | toks => some (none, toks)

/-- Fragment `$(for $ename:ident $(<$($ename_param:tt),*>)?)?`. -/
def parseForPart : List Tok → Option (Option (String × Option (List Tok)) × List Tok)
  | Tok.ident "for" :: Tok.ident en :: rest =>
    (parseGenerics rest).bind fun p => some (some (en, p.1), p.2)
  | Tok.ident "for" :: _ => none
  | toks => some (none, toks)

/-- One target-list element:
`$name:ident $(<…>)? $(for $ename:ident $(<…>)?)?`. -/
def parseTarget : List Tok → Option (TargetSpec × List Tok)
  | Tok.ident n :: rest =>
    (parseGenerics rest).bind fun pg =>
    (parseForPart pg.2).bind fun pf =>
    some (⟨n, pg.1, pf.1⟩, pf.2)
  | _ => none

theorem parseGenTail_length (toks : List Tok) :
    ∀ ts r, parseGenTail toks = some (ts, r) → r.length < toks.length := by
  induction toks using parseGenTail.induct with
  | case1 rest =>
    intro ts r h
    simp only [parseGenTail, Option.some.injEq, Prod.mk.injEq] at h
    simp [← h.2]
  | case2 t rest ih =>
    intro ts r h
    simp only [parseGenTail, Option.bind_eq_some, Option.some.injEq,
      Prod.mk.injEq] at h
    obtain ⟨⟨ts1, r1⟩, hh, _, hr⟩ := h
    have := ih ts1 r1 hh
    simp only [← hr, List.length_cons]
    omega
  | case3 toks h1 h2 =>
    intro ts r h
    rw [parseGenTail.eq_def] at h
    split at h
    · exact absurd rfl (h1 _)
    · exact absurd rfl (h2 _ _)
    · exact absurd h (by simp)

theorem parseGenList_length (toks : List Tok) (ts r : List Tok)
    (h : parseGenList toks = some (ts, r)) : r.length < toks.length := by
  rw [parseGenList.eq_def] at h
  split at h
  · simp only [Option.some.injEq, Prod.mk.injEq] at h
    simp [← h.2]
  · rename_i t rest _
    simp only [Option.bind_eq_some, Option.some.injEq, Prod.mk.injEq] at h
    obtain ⟨⟨ts1, r1⟩, hh, _, hr⟩ := h
    have := parseGenTail_length rest ts1 r1 hh
    simp only [← hr, List.length_cons]
    omega
  · exact absurd h (by simp)

theorem parseGenerics_length (toks : List Tok) (g : Option (List Tok)) (r : List Tok)
    (h : parseGenerics toks = some (g, r)) : r.length ≤ toks.length := by
  rw [parseGenerics.eq_def] at h
  split at h
  · rename_i rest
    simp only [Option.bind_eq_some, Option.some.injEq, Prod.mk.injEq] at h
    obtain ⟨⟨ts1, r1⟩, hh, _, hr⟩ := h
    have := parseGenList_length rest ts1 r1 hh
    simp only [← hr, List.length_cons]
    omega
  · simp only [Option.some.injEq, Prod.mk.injEq] at h
    simp [← h.2]

theorem parseForPart_length (toks : List Tok)
    (fp : Option (String × Option (List Tok))) (r : List Tok)
    (h : parseForPart toks = some (fp, r)) : r.length ≤ toks.length := by
  rw [parseForPart.eq_def] at h
  split at h
  · rename_i en rest
    simp only [Option.bind_eq_some, Option.some.injEq, Prod.mk.injEq] at h
    obtain ⟨⟨ep1, r1⟩, hh, _, hr⟩ := h
    have := parseGenerics_length rest ep1 r1 hh
    simp only [← hr, List.length_cons]
    omega
  · exact absurd h (by simp)
  · simp only [Option.some.injEq, Prod.mk.injEq] at h
    simp [← h.2]

theorem parseTarget_length (toks : List Tok) (e : TargetSpec) (r : List Tok)
    (h : parseTarget toks = some (e, r)) : r.length < toks.length := by
  rw [parseTarget.eq_def] at h
  split at h
  · rename_i n rest
    simp only [Option.bind_eq_some, Option.some.injEq, Prod.mk.injEq] at h
    obtain ⟨⟨np1, r1⟩, h1, ⟨fp1, r2⟩, h2, _, hr⟩ := h
    have l1 := parseGenerics_length rest np1 r1 h1
    have l2 := parseForPart_length r1 fp1 r2 h2
    simp only [← hr, List.length_cons]
    omega
  · exact absurd h (by simp)

/-- The repetition `$(, more_target)*` following the first target. -/
def parseMoreTargets : List Tok → Option (List TargetSpec × List Tok)
  | Tok.punct "," :: rest =>
    match h : parseTarget rest with
    | some (e, r) =>
      (parseMoreTargets r).bind fun pm => some (e :: pm.1, pm.2)
    | none => none
  | toks => some ([], toks)
termination_by toks => toks.length
decreasing_by
  have := parseTarget_length rest e r h
  simp only [List.length_cons]
  omega

theorem parseMoreTargets_length (toks : List Tok) :
    ∀ es r, parseMoreTargets toks = some (es, r) → r.length ≤ toks.length := by
  induction toks using parseMoreTargets.induct with
  | case1 rest e r1 h ih =>
    intro es r hh
    rw [parseMoreTargets.eq_def] at hh
    split at hh
    · rename_i r2 heq
      cases heq
      split at hh
      · rename_i e2 r3 heq2
        rw [h] at heq2
        injection heq2 with heq3
        injection heq3 with he hr
        subst he
        subst hr
        simp only [Option.bind_eq_some, Option.some.injEq, Prod.mk.injEq] at hh
        obtain ⟨⟨es1, r4⟩, hm, _, hr⟩ := hh
        have l1 := parseTarget_length rest e r1 h
        have l2 := ih es1 r4 hm
        simp only [← hr, List.length_cons]
        omega
      · exact absurd hh (by simp)
    · simp only [Option.some.injEq, Prod.mk.injEq] at hh
      simp only [← hh.2]
      omega
  | case2 rest h =>
    intro es r hh
    rw [parseMoreTargets.eq_def] at hh
    split at hh
    · rename_i r2 heq
      cases heq
      split at hh
      · rename_i e2 r3 heq2
        rw [h] at heq2
        exact absurd heq2 (by simp)
      · exact absurd hh (by simp)
    · simp only [Option.some.injEq, Prod.mk.injEq] at hh
      simp only [← hh.2]
      omega
  | case3 toks h1 =>
    intro es r hh
    rw [parseMoreTargets.eq_def] at hh
    split at hh
    · exact (h1 _ rfl).elim
    · simp only [Option.some.injEq, Prod.mk.injEq] at hh
      simp only [← hh.2]
      omega

/-- Fragment `$(where ($($where_args:tt)*))?` — the optional where clause, which
the grammar requires to be parenthesized (line 225). -/
def parseWhereOpt : List Tok → Option (Option (List Tok) × List Tok)
  | Tok.ident "where" :: Tok.parens ws :: rest => some (some ws, rest)
  | Tok.ident "where" :: _ => none
  | toks => some (none, toks)

theorem parseWhereOpt_length (toks : List Tok) (w : Option (List Tok)) (r : List Tok)
    (h : parseWhereOpt toks = some (w, r)) : r.length ≤ toks.length := by
  rw [parseWhereOpt.eq_def] at h
  split at h
  · simp only [Option.some.injEq, Prod.mk.injEq] at h
    simp only [← h.2, List.length_cons]
    omega
  · exact absurd h (by simp)
  · simp only [Option.some.injEq, Prod.mk.injEq] at h
    simp only [← h.2]
    omega

/-- One full header:
`impl $(<$($gen_args:tt),*>)? target $(, target)* $(where (…))?`
(lines 218–225, and identically lines 227–234). -/
def parseHeader : List Tok → Option (Header × List Tok)
  | Tok.ident "impl" :: rest =>
    (parseGenerics rest).bind fun pg =>
    (parseTarget pg.2).bind fun pe =>
    (parseMoreTargets pe.2).bind fun pm =>
    (parseWhereOpt pm.2).bind fun pw =>
    some (⟨pg.1, pe.1, pm.1, pw.1⟩, pw.2)
  | _ => none

theorem parseHeader_length (toks : List Tok) (hd : Header) (r : List Tok)
    (h : parseHeader toks = some (hd, r)) : r.length < toks.length := by
  rw [parseHeader.eq_def] at h
  split at h
  · rename_i rest
    simp only [Option.bind_eq_some, Option.some.injEq, Prod.mk.injEq] at h
    obtain ⟨⟨g1, r1⟩, h1, ⟨e1, r2⟩, h2, ⟨m1, r3⟩, h3, ⟨w1, r4⟩, h4, _, hr⟩ := h
    have l1 := parseGenerics_length rest g1 r1 h1
    have l2 := parseTarget_length r1 e1 r2 h2
    have l3 := parseMoreTargets_length r2 m1 r3 h3
    have l4 := parseWhereOpt_length r3 w1 r4 h4
    simp only [← hr, List.length_cons]
    omega
  · exact absurd h (by simp)

/-- The repetition of additional headers `$(impl … $(where (…))?)*`
(lines 226–235). -/
def parseHeaders : List Tok → Option (List Header × List Tok)
  | Tok.ident "impl" :: rest =>
    match h : parseHeader (Tok.ident "impl" :: rest) with
    | some (hd, r) =>
      (parseHeaders r).bind fun ph => some (hd :: ph.1, ph.2)
    | none => none
  | toks => some ([], toks)
termination_by toks => toks.length
decreasing_by
  have := parseHeader_length (Tok.ident "impl" :: rest) hd r h
  simp only [List.length_cons] at this ⊢
  omega

theorem parseHeaders_length (toks : List Tok) :
    ∀ hs r, parseHeaders toks = some (hs, r) → r.length ≤ toks.length := by
  induction toks using parseHeaders.induct with
  | case1 rest hd r1 h ih =>
    intro hs r hh
    rw [parseHeaders.eq_def] at hh
    split at hh
    · rename_i r2 heq
      cases heq
      split at hh
      · rename_i hd2 r3 heq2
        rw [h] at heq2
        injection heq2 with heq3
        injection heq3 with he hr
        subst he
        subst hr
        simp only [Option.bind_eq_some, Option.some.injEq, Prod.mk.injEq] at hh
        obtain ⟨⟨hs1, r4⟩, hm, _, hr⟩ := hh
        have l1 := parseHeader_length (Tok.ident "impl" :: rest) hd r1 h
        have l2 := ih hs1 r4 hm
        simp only [← hr, List.length_cons] at l1 ⊢
        omega
      · exact absurd hh (by simp)
    · simp only [Option.some.injEq, Prod.mk.injEq] at hh
      simp only [← hh.2]
      omega
  | case2 rest h =>
    intro hs r hh
    rw [parseHeaders.eq_def] at hh
    split at hh
    · rename_i r2 heq
      cases heq
      split at hh
      · rename_i hd2 r3 heq2
        rw [h] at heq2
        exact absurd heq2 (by simp)
      · exact absurd hh (by simp)
    · simp only [Option.some.injEq, Prod.mk.injEq] at hh
      simp only [← hh.2]
      omega
  | case3 toks h1 =>
    intro hs r hh
    rw [parseHeaders.eq_def] at hh
    split at hh
    · exact (h1 _ rfl).elim
    · simp only [Option.some.injEq, Prod.mk.injEq] at hh
      simp only [← hh.2]
      omega

/-- The production on lines 211–213: a header with *no* targets at all,
`impl $(<$($gen_args:tt),*>)? $(where ($($where_args:tt)*))? { … }`,
which is silently discarded.  Returns the trailing tokens. -/
def parseRule2 : List Tok → Option (List Tok)
  | Tok.ident "impl" :: rest =>
    (parseGenerics rest).bind fun pg =>
    (parseWhereOpt pg.2).bind fun pw =>
    match pw.2 with
    | Tok.braces _ :: extra => some extra
    | _ => none
  | _ => none

theorem parseRule2_length (toks : List Tok) (extra : List Tok)
    (h : parseRule2 toks = some extra) : extra.length < toks.length := by
  rw [parseRule2.eq_def] at h
  split at h
  · rename_i rest
    simp only [Option.bind_eq_some] at h
    obtain ⟨⟨g1, r1⟩, h1, ⟨w1, r2⟩, h2, hm⟩ := h
    have l1 := parseGenerics_length rest g1 r1 h1
    have l2 := parseWhereOpt_length r1 w1 r2 h2
    simp only at hm
    rcases r2 with _ | ⟨t, r3⟩
    · exact absurd hm (by simp)
    · cases t with
      | braces c =>
        simp only [Option.some.injEq] at hm
        subst hm
        simp only [List.length_cons] at l2 ⊢
        omega
      | ident s => exact absurd hm (by simp)
      | punct s => exact absurd hm (by simp)
      | lifetime s => exact absurd hm (by simp)
      | lit s => exact absurd hm (by simp)
      | parens ts => exact absurd hm (by simp)
      | brackets ts => exact absurd hm (by simp)
  · exact absurd h (by simp)

/-- The main production (lines 217–240): one or more headers, a braced
body, trailing tokens. -/
def parseRule4 : List Tok → Option (Header × List Header × List (List Tok) × List Tok)
  | toks =>
    (parseHeader toks).bind fun p1 =>
    (parseHeaders p1.2).bind fun p2 =>
    match p2.2 with
    | Tok.braces content :: extra => some (p1.1, p2.1, content, extra)
    | _ => none

/-!
## Parse soundness

Whenever a production matches, the consumed tokens are exactly the
serialization of the captured fragments: the declarative matcher never
reinterprets or reorders tokens.
-/

theorem parseGenTail_sound (toks : List Tok) :
    ∀ ts r, parseGenTail toks = some (ts, r) →
      toks = serialGenTail ts ++ Tok.punct ">" :: r := by
  induction toks using parseGenTail.induct with
  | case1 rest =>
    intro ts r h
    simp only [parseGenTail, Option.some.injEq, Prod.mk.injEq] at h
    simp [← h.1, ← h.2, serialGenTail]
  | case2 t rest ih =>
    intro ts r h
    simp only [parseGenTail, Option.bind_eq_some, Option.some.injEq,
      Prod.mk.injEq] at h
    obtain ⟨⟨ts1, r1⟩, hh, ht, hr⟩ := h
    have := ih ts1 r1 hh
    simp [← ht, ← hr, serialGenTail, this]
  | case3 toks h1 h2 =>
    intro ts r h
    rw [parseGenTail.eq_def] at h
    split at h
    · exact absurd rfl (h1 _)
    · exact absurd rfl (h2 _ _)
    · exact absurd h (by simp)

theorem parseGenList_sound (toks : List Tok) (ts r : List Tok)
    (h : parseGenList toks = some (ts, r)) :
    toks = serialGenListInner ts ++ Tok.punct ">" :: r := by
  rw [parseGenList.eq_def] at h
  split at h
  · simp only [Option.some.injEq, Prod.mk.injEq] at h
    simp [← h.1, ← h.2, serialGenListInner]
  · rename_i t rest _
    simp only [Option.bind_eq_some, Option.some.injEq, Prod.mk.injEq] at h
    obtain ⟨⟨ts1, r1⟩, hh, ht, hr⟩ := h
    have := parseGenTail_sound rest ts1 r1 hh
    simp [← ht, ← hr, serialGenListInner, this]
  · exact absurd h (by simp)

theorem parseGenerics_sound (toks : List Tok) (g : Option (List Tok)) (r : List Tok)
    (h : parseGenerics toks = some (g, r)) : toks = serialGens g ++ r := by
  rw [parseGenerics.eq_def] at h
  split at h
  · rename_i rest
    simp only [Option.bind_eq_some, Option.some.injEq, Prod.mk.injEq] at h
    obtain ⟨⟨ts1, r1⟩, hh, hg, hr⟩ := h
    have := parseGenList_sound rest ts1 r1 hh
    simp [← hg, ← hr, serialGens, this]
  · simp only [Option.some.injEq, Prod.mk.injEq] at h
    simp [← h.1, ← h.2, serialGens]

theorem parseForPart_sound (toks : List Tok)
    (fp : Option (String × Option (List Tok))) (r : List Tok)
    (h : parseForPart toks = some (fp, r)) : toks = serialForPart fp ++ r := by
  rw [parseForPart.eq_def] at h
  split at h
  · rename_i en rest
    simp only [Option.bind_eq_some, Option.some.injEq, Prod.mk.injEq] at h
    obtain ⟨⟨ep1, r1⟩, hh, hf, hr⟩ := h
    have := parseGenerics_sound rest ep1 r1 hh
    simp [← hf, ← hr, serialForPart, this]
  · exact absurd h (by simp)
  · simp only [Option.some.injEq, Prod.mk.injEq] at h
    simp [← h.1, ← h.2, serialForPart]

theorem parseTarget_sound (toks : List Tok) (e : TargetSpec) (r : List Tok)
    (h : parseTarget toks = some (e, r)) : toks = serialTarget e ++ r := by
  rw [parseTarget.eq_def] at h
  split at h
  · rename_i n rest
    simp only [Option.bind_eq_some, Option.some.injEq, Prod.mk.injEq] at h
    obtain ⟨⟨np1, r1⟩, h1, ⟨fp1, r2⟩, h2, he, hr⟩ := h
    have s1 := parseGenerics_sound rest np1 r1 h1
    have s2 := parseForPart_sound r1 fp1 r2 h2
    simp [← he, ← hr, serialTarget, s1, s2]
  · exact absurd h (by simp)

theorem parseMoreTargets_sound (toks : List Tok) :
    ∀ es r, parseMoreTargets toks = some (es, r) →
      toks = serialMoreTargets es ++ r := by
  induction toks using parseMoreTargets.induct with
  | case1 rest e r1 h ih =>
    intro es r hh
    rw [parseMoreTargets.eq_def] at hh
    split at hh
    · rename_i r2 heq
      cases heq
      split at hh
      · rename_i e2 r3 heq2
        rw [h] at heq2
        injection heq2 with heq3
        injection heq3 with he hr
        subst he
        subst hr
        simp only [Option.bind_eq_some, Option.some.injEq, Prod.mk.injEq] at hh
        obtain ⟨⟨es1, r4⟩, hm, hes, hr2⟩ := hh
        have s1 := parseTarget_sound rest e r1 h
        have s2 := ih es1 r4 hm
        simp [← hes, ← hr2, serialMoreTargets, s1, s2]
      · exact absurd hh (by simp)
    · simp only [Option.some.injEq, Prod.mk.injEq] at hh
      simp [← hh.1, ← hh.2, serialMoreTargets]
  | case2 rest h =>
    intro es r hh
    rw [parseMoreTargets.eq_def] at hh
    split at hh
    · rename_i r2 heq
      cases heq
      split at hh
      · rename_i e2 r3 heq2
        rw [h] at heq2
        exact absurd heq2 (by simp)
      · exact absurd hh (by simp)
    · simp only [Option.some.injEq, Prod.mk.injEq] at hh
      simp [← hh.1, ← hh.2, serialMoreTargets]
  | case3 toks h1 =>
    intro es r hh
    rw [parseMoreTargets.eq_def] at hh
    split at hh
    · exact (h1 _ rfl).elim
    · simp only [Option.some.injEq, Prod.mk.injEq] at hh
      simp [← hh.1, ← hh.2, serialMoreTargets]

theorem parseWhereOpt_sound (toks : List Tok) (w : Option (List Tok)) (r : List Tok)
    (h : parseWhereOpt toks = some (w, r)) : toks = serialWhereParens w ++ r := by
  rw [parseWhereOpt.eq_def] at h
  split at h
  · simp only [Option.some.injEq, Prod.mk.injEq] at h
    simp [← h.1, ← h.2, serialWhereParens]
  · exact absurd h (by simp)
  · simp only [Option.some.injEq, Prod.mk.injEq] at h
    simp [← h.1, ← h.2, serialWhereParens]

theorem parseHeader_sound (toks : List Tok) (hd : Header) (r : List Tok)
    (h : parseHeader toks = some (hd, r)) : toks = serialHeader hd ++ r := by
  rw [parseHeader.eq_def] at h
  split at h
  · rename_i rest
    simp only [Option.bind_eq_some, Option.some.injEq, Prod.mk.injEq] at h
    obtain ⟨⟨g1, r1⟩, h1, ⟨e1, r2⟩, h2, ⟨m1, r3⟩, h3, ⟨w1, r4⟩, h4, hh, hr⟩ := h
    have s1 := parseGenerics_sound rest g1 r1 h1
    have s2 := parseTarget_sound r1 e1 r2 h2
    have s3 := parseMoreTargets_sound r2 m1 r3 h3
    have s4 := parseWhereOpt_sound r3 w1 r4 h4
    simp [← hh, ← hr, serialHeader, s1, s2, s3, s4]
  · exact absurd h (by simp)

theorem parseHeaders_sound (toks : List Tok) :
    ∀ hs r, parseHeaders toks = some (hs, r) → toks = serialHeaders hs ++ r := by
  induction toks using parseHeaders.induct with
  | case1 rest hd r1 h ih =>
    intro hs r hh
    rw [parseHeaders.eq_def] at hh
    split at hh
    · rename_i r2 heq
      cases heq
      split at hh
      · rename_i hd2 r3 heq2
        rw [h] at heq2
        injection heq2 with heq3
        injection heq3 with he hr
        subst he
        subst hr
        simp only [Option.bind_eq_some, Option.some.injEq, Prod.mk.injEq] at hh
        obtain ⟨⟨hs1, r4⟩, hm, hhs, hr2⟩ := hh
        have s1 := parseHeader_sound (Tok.ident "impl" :: rest) hd r1 h
        have s2 := ih hs1 r4 hm
        simp only [← hhs, ← hr2, serialHeaders, List.append_assoc, ← s2]
        exact s1
      · exact absurd hh (by simp)
    · simp only [Option.some.injEq, Prod.mk.injEq] at hh
      simp [← hh.1, ← hh.2, serialHeaders]
  | case2 rest h =>
    intro hs r hh
    rw [parseHeaders.eq_def] at hh
    split at hh
    · rename_i r2 heq
      cases heq
      split at hh
      · rename_i hd2 r3 heq2
        rw [h] at heq2
        exact absurd heq2 (by simp)
      · exact absurd hh (by simp)
    · simp only [Option.some.injEq, Prod.mk.injEq] at hh
      simp [← hh.1, ← hh.2, serialHeaders]
  | case3 toks h1 =>
    intro hs r hh
    rw [parseHeaders.eq_def] at hh
    split at hh
    · exact (h1 _ rfl).elim
    · simp only [Option.some.injEq, Prod.mk.injEq] at hh
      simp [← hh.1, ← hh.2, serialHeaders]

theorem parseRule4_sound (toks : List Tok) (hd : Header) (hs : List Header)
    (c : List (List Tok)) (extra : List Tok)
    (h : parseRule4 toks = some (hd, hs, c, extra)) :
    toks = serialHeader hd ++ serialHeaders hs ++ Tok.braces c :: extra := by
  rw [parseRule4.eq_def] at h
  simp only [Option.bind_eq_some] at h
  obtain ⟨⟨hd1, r1⟩, h1, ⟨hs1, r2⟩, h2, hm⟩ := h
  simp only at hm
  have s1 := parseHeader_sound toks hd1 r1 h1
  have s2 := parseHeaders_sound r1 hs1 r2 h2
  rcases r2 with _ | ⟨t, r3⟩
  · exact absurd hm (by simp)
  · cases t with
    | braces c2 =>
      simp only [Option.some.injEq, Prod.mk.injEq] at hm
      obtain ⟨hhd, hhs, hc, hx⟩ := hm
      subst hhd; subst hhs; subst hc; subst hx
      rw [s1, s2, List.append_assoc]
    | ident s => exact absurd hm (by simp)
    | punct s => exact absurd hm (by simp)
    | lifetime s => exact absurd hm (by simp)
    | lit s => exact absurd hm (by simp)
    | parens ts => exact absurd hm (by simp)
    | brackets ts => exact absurd hm (by simp)

/-!
## The rewriter

`emitBlock` is the expansion emitted for one `(header, target)` pair
(lines 241–243); `recallSameHeader` and `recallMoreHeaders` are the token
sequences of the two recursive `impl_twice!` invocations the main
production emits (lines 244–253 and 254–268).
-/

/-- Emission `impl$(<$($gen_args),*>)? $name$(<…>)? $(for $ename$(<…>)?)?
$(where $($where_args)*)? { $($content)* }` — note the where clause is
emitted *without* its delimiting parentheses. -/
def emitBlock (g : Option (List Tok)) (e : TargetSpec) (w : Option (List Tok))
    (content : List (List Tok)) : List Tok :=
  Tok.ident "impl" :: serialGens g ++ serialTarget e ++ serialWhereBare w ++
    [Tok.braces content]

/-- The emitted recursive call that continues the current header with its
remaining targets (the parenthesized where clause is reconstituted). -/
def recallSameHeader (g : Option (List Tok)) (es : List TargetSpec)
    (w : Option (List Tok)) (content : List (List Tok)) : List Tok :=
  Tok.ident "impl" :: serialGens g ++ serialTargetList es ++
    serialWhereParens w ++ [Tok.braces content]

/-- The emitted recursive call that continues with the remaining headers
of the current group. -/
def recallMoreHeaders (hs : List Header) (content : List (List Tok)) : List Tok :=
  serialHeaders hs ++ [Tok.braces content]

theorem serialTarget_pos (e : TargetSpec) : 1 ≤ (serialTarget e).length := by
  simp [serialTarget]

theorem serialTargetList_le (es : List TargetSpec) :
    (serialTargetList es).length ≤ (serialMoreTargets es).length := by
  cases es with
  | nil => simp [serialTargetList, serialMoreTargets]
  | cons e es => simp [serialTargetList, serialMoreTargets]

theorem serialHeader_two (h : Header) : 2 ≤ (serialHeader h).length := by
  have := serialTarget_pos h.first
  simp only [serialHeader, List.length_cons, List.length_append]
  omega

theorem parseRule4_calls_length (toks : List Tok) (hd : Header) (hs : List Header)
    (c : List (List Tok)) (extra : List Tok)
    (h : parseRule4 toks = some (hd, hs, c, extra)) :
    (recallSameHeader hd.gen_args hd.more hd.where_args c).length < toks.length ∧
      (recallMoreHeaders hs c).length < toks.length ∧
      extra.length < toks.length := by
  have hs1 := parseRule4_sound toks hd hs c extra h
  have l1 := serialTarget_pos hd.first
  have l2 := serialTargetList_le hd.more
  have e1 : toks.length = (serialHeader hd).length + (serialHeaders hs).length +
      1 + extra.length := by
    rw [hs1]
    simp only [List.length_append, List.length_cons]
    omega
  have e2 : (serialHeader hd).length = 1 + (serialGens hd.gen_args).length +
      (serialTarget hd.first).length + (serialMoreTargets hd.more).length +
      (serialWhereParens hd.where_args).length := by
    simp only [serialHeader, List.length_append, List.length_cons]
    omega
  have e3 : (recallSameHeader hd.gen_args hd.more hd.where_args c).length =
      1 + (serialGens hd.gen_args).length + (serialTargetList hd.more).length +
      (serialWhereParens hd.where_args).length + 1 := by
    simp only [recallSameHeader, List.length_append, List.length_cons, List.length_nil]
    omega
  have e4 : (recallMoreHeaders hs c).length = (serialHeaders hs).length + 1 := by
    simp only [recallMoreHeaders, List.length_append, List.length_cons, List.length_nil]
  refine ⟨?_, ?_, ?_⟩ <;> omega

/-- The `impl_twice!` rewriter itself (src/src/lib.rs lines 209–271).
The four rules are tried in source order:
* rule 1 (line 210): empty input expands to nothing;
* rule 2 (lines 211–213): a header with no targets, directly followed by
  a braced body, is discarded and expansion continues on the rest;
* rule 3 (lines 214–216): a braced body with no preceding header is
  discarded and expansion continues on the rest;
* rule 4 (lines 217–270): one or more headers and a braced body: the
  expansion for the first header's first target is emitted, followed by
  the expansions of the two recursive invocations (remaining targets of
  the first header; remaining headers) and of the trailing tokens.
`none` models a failure of the whole invocation to match (a compile-time
error of the consuming crate — including the case where an emitted
recursive invocation fails, since that invocation is expanded by the
same rules). -/
def impl_twice (toks : List Tok) : Option (List Tok) :=
  match toks with
  | [] => some []
  | t :: rest =>
    match h2 : parseRule2 (t :: rest) with
    | some extra => impl_twice extra
    | none =>
      match t with
      | Tok.braces _ => impl_twice rest
      | _ =>
        match h4 : parseRule4 (t :: rest) with
        | some (hd, hs, content, extra) =>
          (impl_twice (recallSameHeader hd.gen_args hd.more hd.where_args content)).bind
            fun o1 =>
          (impl_twice (recallMoreHeaders hs content)).bind fun o2 =>
          (impl_twice extra).bind fun o3 =>
          some (emitBlock hd.gen_args hd.first hd.where_args content ++ o1 ++ o2 ++ o3)
        | none => none
termination_by toks.length
decreasing_by
  · exact parseRule2_length _ _ h2
  · simp only [List.length_cons]
    omega
  · exact (parseRule4_calls_length _ _ _ _ _ h4).1
  · exact (parseRule4_calls_length _ _ _ _ _ h4).2.1
  · exact (parseRule4_calls_length _ _ _ _ _ h4).2.2

/-!
## Well-formedness

`genListOk` excludes the single degenerate token (`>`) on which the
lookahead rendering of the tt-repetition differs from the declarative
matcher; `targetOk` additionally excludes the keyword `where` as a
type/trait name (the `ident` fragment would accept it, but every
interesting input uses proper type names).  These are the side conditions
under which serialization round-trips through the matcher.
-/

def genListOk : Option (List Tok) → Bool
  | some (Tok.punct s :: _) => !(s == ">")
  | _ => true

def targetOk (e : TargetSpec) : Bool :=
  !(e.name == "where") && genListOk e.name_param &&
    (match e.ename with
     | none => true
     | some (_, ep) => genListOk ep)

def headerOk (h : Header) : Bool :=
  genListOk h.gen_args && targetOk h.first && h.more.all targetOk

def groupOk (g : DupGroup) : Bool :=
  headerOk g.first_header && g.more_headers.all headerOk

def programOk (P : List DupGroup) : Bool := P.all groupOk

/-! Head-shape tests used as side conditions of the round-trip lemmas. -/

def headIsLt : List Tok → Bool
  | Tok.punct s :: _ => s == "<"
  | _ => false

def headIsComma : List Tok → Bool
  | Tok.punct s :: _ => s == ","
  | _ => false

def headIsForKw : List Tok → Bool
  | Tok.ident s :: _ => s == "for"
  | _ => false

def headIsWhereKw : List Tok → Bool
  | Tok.ident s :: _ => s == "where"
  | _ => false

def headIsImplKw : List Tok → Bool
  | Tok.ident s :: _ => s == "impl"
  | _ => false

def headIsBrace : List Tok → Bool
  | Tok.braces _ :: _ => true
  | _ => false

/-!
## Parse completeness

On well-formed serialized input, each production matches and recovers
exactly the structured data it was serialized from.
-/

theorem parseGenTail_complete (ts : List Tok) (r : List Tok) :
    parseGenTail (serialGenTail ts ++ Tok.punct ">" :: r) = some (ts, r) := by
  induction ts with
  | nil => simp [serialGenTail, parseGenTail]
  | cons t ts ih => simp [serialGenTail, parseGenTail, ih]

theorem parseGenList_complete (ts : List Tok) (r : List Tok)
    (hok : genListOk (some ts) = true) :
    parseGenList (serialGenListInner ts ++ Tok.punct ">" :: r) = some (ts, r) := by
  cases ts with
  | nil => simp [serialGenListInner, parseGenList]
  | cons t ts =>
    rw [serialGenListInner]
    rw [parseGenList.eq_def]
    split
    · rename_i rest heq
      rw [List.cons_append, List.cons.injEq] at heq
      cases t with
      | punct s =>
        injection heq.1 with hs
        subst hs
        simp [genListOk] at hok
      | ident s => exact absurd heq.1 (by simp)
      | lifetime s => exact absurd heq.1 (by simp)
      | lit s => exact absurd heq.1 (by simp)
      | parens a => exact absurd heq.1 (by simp)
      | brackets a => exact absurd heq.1 (by simp)
      | braces a => exact absurd heq.1 (by simp)
    · rename_i t2 rest heq
      rw [List.cons_append, List.cons.injEq] at heq
      obtain ⟨ht, hr⟩ := heq
      subst ht
      rw [← hr, parseGenTail_complete ts r]
      simp
    · rename_i heq
      simp at heq

/-! Definitional unfoldings at concrete head tokens, and the catch-all
behaviour of each optional production when its leading token is absent. -/

theorem parseGenerics_lt_unfold (rest : List Tok) :
    parseGenerics (Tok.punct "<" :: rest) =
      (parseGenList rest).bind fun p => some (some p.1, p.2) := rfl

theorem parseGenerics_not_lt (r : List Tok) (hlt : headIsLt r = false) :
    parseGenerics r = some (none, r) := by
  rcases r with _ | ⟨t, rest⟩
  · rfl
  · cases t with
    | punct s =>
      by_cases hs : s = "<"
      · subst hs
        simp [headIsLt] at hlt
      · rw [parseGenerics.eq_def]
        split
        · rename_i rest2 heq
          rw [List.cons.injEq] at heq
          injection heq.1 with hss
          exact absurd hss hs
        · rfl
    | ident s => rfl
    | lifetime s => rfl
    | lit s => rfl
    | parens a => rfl
    | braces a => rfl
    | brackets a => rfl

theorem parseForPart_for_unfold (en : String) (rest : List Tok) :
    parseForPart (Tok.ident "for" :: Tok.ident en :: rest) =
      (parseGenerics rest).bind fun p => some (some (en, p.1), p.2) := rfl

theorem parseForPart_not_for (r : List Tok) (hfor : headIsForKw r = false) :
    parseForPart r = some (none, r) := by
  rcases r with _ | ⟨t, rest⟩
  · rfl
  · cases t with
    | ident s =>
      by_cases hs : s = "for"
      · subst hs
        simp [headIsForKw] at hfor
      · rw [parseForPart.eq_def]
        split
        · rename_i en rest2 heq
          rw [List.cons.injEq] at heq
          injection heq.1 with hss
          exact absurd hss hs
        · rename_i heq
          rw [List.cons.injEq] at heq
          injection heq.1 with hss
          exact absurd hss hs
        · rfl
    | punct s => rfl
    | lifetime s => rfl
    | lit s => rfl
    | parens a => rfl
    | braces a => rfl
    | brackets a => rfl

theorem parseTarget_ident_unfold (n : String) (rest : List Tok) :
    parseTarget (Tok.ident n :: rest) =
      (parseGenerics rest).bind fun pg =>
      (parseForPart pg.2).bind fun pf =>
      some (⟨n, pg.1, pf.1⟩, pf.2) := rfl

theorem parseWhereOpt_unfold (ws : List Tok) (rest : List Tok) :
    parseWhereOpt (Tok.ident "where" :: Tok.parens ws :: rest) =
      some (some ws, rest) := rfl

theorem parseWhereOpt_not_where (r : List Tok) (hw : headIsWhereKw r = false) :
    parseWhereOpt r = some (none, r) := by
  rcases r with _ | ⟨t, rest⟩
  · rfl
  · cases t with
    | ident s =>
      by_cases hs : s = "where"
      · subst hs
        simp [headIsWhereKw] at hw
      · rw [parseWhereOpt.eq_def]
        split
        · rename_i ws rest2 heq
          rw [List.cons.injEq] at heq
          injection heq.1 with hss
          exact absurd hss hs
        · rename_i heq
          rw [List.cons.injEq] at heq
          injection heq.1 with hss
          exact absurd hss hs
        · rfl
    | punct s => rfl
    | lifetime s => rfl
    | lit s => rfl
    | parens a => rfl
    | braces a => rfl
    | brackets a => rfl

theorem parseMoreTargets_cons (rest : List Tok) (e : TargetSpec) (r : List Tok)
    (h : parseTarget rest = some (e, r)) :
    parseMoreTargets (Tok.punct "," :: rest) =
      (parseMoreTargets r).bind fun pm => some (e :: pm.1, pm.2) := by
  rw [parseMoreTargets.eq_def]
  split
  · rename_i rest2 heq
    cases heq
    split
    · rename_i e2 r2 heq2
      rw [h] at heq2
      injection heq2 with heq3
      injection heq3 with he hr
      subst he
      subst hr
      rfl
    · rename_i heq2
      rw [h] at heq2
      exact absurd heq2 (by simp)
  · exact ((by assumption : ∀ rest2 : List Tok,
      Tok.punct "," :: rest = Tok.punct "," :: rest2 → False) rest rfl).elim

theorem parseMoreTargets_not_comma (r : List Tok) (hc : headIsComma r = false) :
    parseMoreTargets r = some ([], r) := by
  rw [parseMoreTargets.eq_def]
  split
  · simp [headIsComma] at hc
  · rfl

theorem parseHeaders_cons (rest : List Tok) (hd : Header) (r : List Tok)
    (h : parseHeader (Tok.ident "impl" :: rest) = some (hd, r)) :
    parseHeaders (Tok.ident "impl" :: rest) =
      (parseHeaders r).bind fun ph => some (hd :: ph.1, ph.2) := by
  rw [parseHeaders.eq_def]
  split
  · rename_i rest2 heq
    cases heq
    split
    · rename_i hd2 r2 heq2
      rw [h] at heq2
      injection heq2 with heq3
      injection heq3 with he hr
      subst he
      subst hr
      rfl
    · rename_i heq2
      rw [h] at heq2
      exact absurd heq2 (by simp)
  · exact ((by assumption : ∀ rest2 : List Tok,
      Tok.ident "impl" :: rest = Tok.ident "impl" :: rest2 → False) rest rfl).elim

theorem parseHeaders_not_impl (r : List Tok) (hi : headIsImplKw r = false) :
    parseHeaders r = some ([], r) := by
  rw [parseHeaders.eq_def]
  split
  · simp [headIsImplKw] at hi
  · rfl

theorem parseRule2_impl_unfold (rest : List Tok) :
    parseRule2 (Tok.ident "impl" :: rest) =
      ((parseGenerics rest).bind fun pg =>
       (parseWhereOpt pg.2).bind fun pw =>
       match pw.2 with
       | Tok.braces _ :: extra => some extra
       | _ => none) := rfl

theorem parseRule2_not_impl (r : List Tok) (hi : headIsImplKw r = false) :
    parseRule2 r = none := by
  rcases r with _ | ⟨t, rest⟩
  · rfl
  · cases t with
    | ident s =>
      by_cases hs : s = "impl"
      · subst hs
        simp [headIsImplKw] at hi
      · rw [parseRule2.eq_def]
        split
        · rename_i rest2 heq
          rw [List.cons.injEq] at heq
          injection heq.1 with hss
          exact absurd hss hs
        · rfl
    | punct s => rfl
    | lifetime s => rfl
    | lit s => rfl
    | parens a => rfl
    | braces a => rfl
    | brackets a => rfl

theorem parseGenerics_complete (g : Option (List Tok)) (r : List Tok)
    (hok : genListOk g = true) (hlt : headIsLt r = false) :
    parseGenerics (serialGens g ++ r) = some (g, r) := by
  cases g with
  | none => exact parseGenerics_not_lt r hlt
  | some ts =>
    have : serialGens (some ts) ++ r =
        Tok.punct "<" :: (serialGenListInner ts ++ Tok.punct ">" :: r) := by
      simp [serialGens]
    rw [this, parseGenerics_lt_unfold, parseGenList_complete ts r hok]
    rfl

theorem parseForPart_complete (fp : Option (String × Option (List Tok))) (r : List Tok)
    (hok : (match fp with
            | none => true
            | some (_, ep) => genListOk ep) = true)
    (hlt : headIsLt r = false) (hfor : headIsForKw r = false) :
    parseForPart (serialForPart fp ++ r) = some (fp, r) := by
  cases fp with
  | none => exact parseForPart_not_for r hfor
  | some p =>
    obtain ⟨en, ep⟩ := p
    have : serialForPart (some (en, ep)) ++ r =
        Tok.ident "for" :: Tok.ident en :: (serialGens ep ++ r) := by
      simp [serialForPart]
    rw [this, parseForPart_for_unfold, parseGenerics_complete ep r hok hlt]
    rfl

theorem parseTarget_complete (e : TargetSpec) (r : List Tok)
    (hok : targetOk e = true)
    (hlt : headIsLt r = false) (hfor : headIsForKw r = false) :
    parseTarget (serialTarget e ++ r) = some (e, r) := by
  obtain ⟨n, np, fp⟩ := e
  simp only [targetOk, Bool.and_eq_true] at hok
  obtain ⟨⟨hn, hnp⟩, hfp⟩ := hok
  have hltF : headIsLt (serialForPart fp ++ r) = false := by
    cases fp with
    | none => simpa [serialForPart]
    | some p => obtain ⟨en, ep⟩ := p; simp [serialForPart, headIsLt]
  have hser : serialTarget ⟨n, np, fp⟩ ++ r =
      Tok.ident n :: (serialGens np ++ (serialForPart fp ++ r)) := by
    simp [serialTarget]
  rw [hser, parseTarget_ident_unfold]
  simp [parseGenerics_complete np _ hnp hltF,
    parseForPart_complete fp r hfp hlt hfor]

theorem parseMoreTargets_complete (es : List TargetSpec) (r : List Tok)
    (hok : es.all targetOk = true) (hc : headIsComma r = false)
    (hlt : headIsLt r = false) (hfor : headIsForKw r = false) :
    parseMoreTargets (serialMoreTargets es ++ r) = some (es, r) := by
  induction es with
  | nil => exact parseMoreTargets_not_comma r hc
  | cons e es ih =>
    simp only [List.all_cons, Bool.and_eq_true] at hok
    obtain ⟨he, hes⟩ := hok
    have hltF : headIsLt (serialMoreTargets es ++ r) = false := by
      cases es with
      | nil => simpa [serialMoreTargets]
      | cons e2 es2 => simp [serialMoreTargets, headIsLt]
    have hforF : headIsForKw (serialMoreTargets es ++ r) = false := by
      cases es with
      | nil => simpa [serialMoreTargets]
      | cons e2 es2 => simp [serialMoreTargets, headIsForKw]
    have hser : serialMoreTargets (e :: es) ++ r =
        Tok.punct "," :: (serialTarget e ++ (serialMoreTargets es ++ r)) := by
      simp [serialMoreTargets]
    rw [hser, parseMoreTargets_cons _ e (serialMoreTargets es ++ r)
      (parseTarget_complete e _ he hltF hforF)]
    rw [ih hes]
    rfl

theorem parseWhereOpt_complete (w : Option (List Tok)) (r : List Tok)
    (hw : headIsWhereKw r = false) :
    parseWhereOpt (serialWhereParens w ++ r) = some (w, r) := by
  cases w with
  | none => exact parseWhereOpt_not_where r hw
  | some ws => rfl

theorem parseHeader_impl_unfold (rest : List Tok) :
    parseHeader (Tok.ident "impl" :: rest) =
      ((parseGenerics rest).bind fun pg =>
       (parseTarget pg.2).bind fun pe =>
       (parseMoreTargets pe.2).bind fun pm =>
       (parseWhereOpt pm.2).bind fun pw =>
       some (⟨pg.1, pe.1, pm.1, pw.1⟩, pw.2)) := rfl

theorem parseHeader_complete (hd : Header) (r : List Tok)
    (hok : headerOk hd = true)
    (hc : headIsComma r = false) (hlt : headIsLt r = false)
    (hfor : headIsForKw r = false) (hw : headIsWhereKw r = false) :
    parseHeader (serialHeader hd ++ r) = some (hd, r) := by
  obtain ⟨g, first, more, w⟩ := hd
  simp only [headerOk, Bool.and_eq_true] at hok
  obtain ⟨⟨hg, hfirst⟩, hmore⟩ := hok
  have hcW : headIsComma (serialWhereParens w ++ r) = false := by
    cases w with
    | none => simpa [serialWhereParens]
    | some ws => simp [serialWhereParens, headIsComma]
  have hltW : headIsLt (serialWhereParens w ++ r) = false := by
    cases w with
    | none => simpa [serialWhereParens]
    | some ws => simp [serialWhereParens, headIsLt]
  have hforW : headIsForKw (serialWhereParens w ++ r) = false := by
    cases w with
    | none => simpa [serialWhereParens]
    | some ws => simp [serialWhereParens, headIsForKw]
  have hltM : headIsLt (serialMoreTargets more ++ (serialWhereParens w ++ r)) = false := by
    cases more with
    | nil => simpa [serialMoreTargets]
    | cons e2 es2 => simp [serialMoreTargets, headIsLt]
  have hforM : headIsForKw (serialMoreTargets more ++ (serialWhereParens w ++ r)) = false := by
    cases more with
    | nil => simpa [serialMoreTargets]
    | cons e2 es2 => simp [serialMoreTargets, headIsForKw]
  have hltT : headIsLt (serialTarget first ++
      (serialMoreTargets more ++ (serialWhereParens w ++ r))) = false := by
    simp [serialTarget, headIsLt]
  have hser : serialHeader ⟨g, first, more, w⟩ ++ r =
      Tok.ident "impl" :: (serialGens g ++ (serialTarget first ++
        (serialMoreTargets more ++ (serialWhereParens w ++ r)))) := by
    simp [serialHeader]
  rw [hser, parseHeader_impl_unfold]
  simp [parseGenerics_complete g _ hg hltT,
    parseTarget_complete first _ hfirst hltM hforM,
    parseMoreTargets_complete more _ hmore hcW hltW hforW,
    parseWhereOpt_complete w r hw]

theorem parseHeaders_complete (hs : List Header) (r : List Tok)
    (hok : hs.all headerOk = true)
    (hc : headIsComma r = false) (hlt : headIsLt r = false)
    (hfor : headIsForKw r = false) (hw : headIsWhereKw r = false)
    (hi : headIsImplKw r = false) :
    parseHeaders (serialHeaders hs ++ r) = some (hs, r) := by
  induction hs with
  | nil => exact parseHeaders_not_impl r hi
  | cons hd hs ih =>
    simp only [List.all_cons, Bool.and_eq_true] at hok
    obtain ⟨hhd, hhs⟩ := hok
    have hcH : headIsComma (serialHeaders hs ++ r) = false := by
      cases hs with
      | nil => simpa [serialHeaders]
      | cons h2 hs2 => simp [serialHeaders, serialHeader, headIsComma]
    have hltH : headIsLt (serialHeaders hs ++ r) = false := by
      cases hs with
      | nil => simpa [serialHeaders]
      | cons h2 hs2 => simp [serialHeaders, serialHeader, headIsLt]
    have hforH : headIsForKw (serialHeaders hs ++ r) = false := by
      cases hs with
      | nil => simpa [serialHeaders]
      | cons h2 hs2 => simp [serialHeaders, serialHeader, headIsForKw]
    have hwH : headIsWhereKw (serialHeaders hs ++ r) = false := by
      cases hs with
      | nil => simpa [serialHeaders]
      | cons h2 hs2 => simp [serialHeaders, serialHeader, headIsWhereKw]
    have hp := parseHeader_complete hd (serialHeaders hs ++ r) hhd hcH hltH hforH hwH
    have hser : serialHeaders (hd :: hs) ++ r =
        serialHeader hd ++ (serialHeaders hs ++ r) := by
      simp [serialHeaders]
    have hser2 : serialHeader hd ++ (serialHeaders hs ++ r) =
        Tok.ident "impl" :: (serialGens hd.gen_args ++ serialTarget hd.first ++
          serialMoreTargets hd.more ++ serialWhereParens hd.where_args ++
          (serialHeaders hs ++ r)) := by
      simp [serialHeader]
    rw [hser, hser2]
    rw [hser2] at hp
    rw [parseHeaders_cons _ hd (serialHeaders hs ++ r) hp]
    rw [ih hhs]
    rfl

theorem parseRule4_complete (hd : Header) (hs : List Header)
    (c : List (List Tok)) (extra : List Tok)
    (hok : headerOk hd = true) (hoks : hs.all headerOk = true) :
    parseRule4 (serialHeader hd ++ serialHeaders hs ++ Tok.braces c :: extra) =
      some (hd, hs, c, extra) := by
  have hr : serialHeader hd ++ serialHeaders hs ++ Tok.braces c :: extra =
      serialHeader hd ++ (serialHeaders hs ++ Tok.braces c :: extra) := by
    simp
  have hcB : headIsComma (Tok.braces c :: extra) = false := rfl
  have hltB : headIsLt (Tok.braces c :: extra) = false := rfl
  have hforB : headIsForKw (Tok.braces c :: extra) = false := rfl
  have hwB : headIsWhereKw (Tok.braces c :: extra) = false := rfl
  have hiB : headIsImplKw (Tok.braces c :: extra) = false := rfl
  have hcH : headIsComma (serialHeaders hs ++ Tok.braces c :: extra) = false := by
    cases hs with
    | nil => simpa [serialHeaders]
    | cons h2 hs2 => simp [serialHeaders, serialHeader, headIsComma]
  have hltH : headIsLt (serialHeaders hs ++ Tok.braces c :: extra) = false := by
    cases hs with
    | nil => simpa [serialHeaders]
    | cons h2 hs2 => simp [serialHeaders, serialHeader, headIsLt]
  have hforH : headIsForKw (serialHeaders hs ++ Tok.braces c :: extra) = false := by
    cases hs with
    | nil => simpa [serialHeaders]
    | cons h2 hs2 => simp [serialHeaders, serialHeader, headIsForKw]
  have hwH : headIsWhereKw (serialHeaders hs ++ Tok.braces c :: extra) = false := by
    cases hs with
    | nil => simpa [serialHeaders]
    | cons h2 hs2 => simp [serialHeaders, serialHeader, headIsWhereKw]
  have hunfold : ∀ toks : List Tok, parseRule4 toks =
      ((parseHeader toks).bind fun p1 =>
       (parseHeaders p1.2).bind fun p2 =>
       match p2.2 with
       | Tok.braces content :: extra => some (p1.1, p2.1, content, extra)
       | _ => none) := fun _ => rfl
  rw [hr, hunfold, parseHeader_complete hd _ hok hcH hltH hforH hwH]
  simp only [Option.some_bind]
  rw [parseHeaders_complete hs _ hoks hcB hltB hforB hwB hiB]
  rfl

theorem parseRule2_none_of_header (hd : Header) (r : List Tok)
    (hok : headerOk hd = true) :
    parseRule2 (serialHeader hd ++ r) = none := by
  obtain ⟨g, first, more, w⟩ := hd
  simp only [headerOk, Bool.and_eq_true] at hok
  obtain ⟨⟨hg, hfirst⟩, _⟩ := hok
  simp only [targetOk, Bool.and_eq_true] at hfirst
  have hn : ¬ first.name = "where" := by
    have := hfirst.1.1
    simpa using this
  have hltT : headIsLt (serialTarget first ++
      (serialMoreTargets more ++ (serialWhereParens w ++ r))) = false := by
    simp [serialTarget, headIsLt]
  have hwT : headIsWhereKw (serialTarget first ++
      (serialMoreTargets more ++ (serialWhereParens w ++ r))) = false := by
    simp [serialTarget, headIsWhereKw, hn]
  have hser : serialHeader ⟨g, first, more, w⟩ ++ r =
      Tok.ident "impl" :: (serialGens g ++ (serialTarget first ++
        (serialMoreTargets more ++ (serialWhereParens w ++ r)))) := by
    simp [serialHeader]
  rw [hser, parseRule2_impl_unfold]
  rw [parseGenerics_complete g _ hg hltT]
  simp only [Option.some_bind]
  rw [parseWhereOpt_not_where _ hwT]
  simp only [Option.some_bind]
  have : ∃ n2 rest2, serialTarget first ++
      (serialMoreTargets more ++ (serialWhereParens w ++ r)) =
      Tok.ident n2 :: rest2 := by
    refine ⟨first.name, serialGens first.name_param ++ serialForPart first.ename ++
      (serialMoreTargets more ++ (serialWhereParens w ++ r)), ?_⟩
    simp [serialTarget]
  obtain ⟨n2, rest2, heq⟩ := this
  rw [heq]

/-! Unfolding equations for `impl_twice`, one per rule of the source. -/

theorem impl_twice_nil : impl_twice [] = some [] := by
  rw [impl_twice.eq_def]

theorem impl_twice_rule2 (t : Tok) (rest extra : List Tok)
    (h : parseRule2 (t :: rest) = some extra) :
    impl_twice (t :: rest) = impl_twice extra := by
  rw [impl_twice.eq_def]
  split
  · rename_i heq
    simp at heq
  · rename_i t2 ts2 heq
    cases heq
    split
    · rename_i extra2 heq2
      rw [h] at heq2
      injection heq2 with he
      subst he
      rfl
    · rename_i heq2
      rw [h] at heq2
      exact absurd heq2 (by simp)

theorem impl_twice_rule3 (c : List (List Tok)) (rest : List Tok) :
    impl_twice (Tok.braces c :: rest) = impl_twice rest := by
  have h2 : parseRule2 (Tok.braces c :: rest) = none :=
    parseRule2_not_impl _ rfl
  rw [impl_twice.eq_def]
  split
  · rename_i heq
    simp at heq
  · rename_i t2 ts2 heq
    cases heq
    split
    · rename_i extra2 heq2
      rw [h2] at heq2
      exact absurd heq2 (by simp)
    · split
      · rfl
      · rename_i hnb
        exact (hnb c rfl rfl HEq.rfl).elim

theorem impl_twice_rule4 (t : Tok) (rest : List Tok) (hd : Header)
    (hs : List Header) (c : List (List Tok)) (extra : List Tok)
    (h2 : parseRule2 (t :: rest) = none)
    (hnb : headIsBrace (t :: rest) = false)
    (h4 : parseRule4 (t :: rest) = some (hd, hs, c, extra)) :
    impl_twice (t :: rest) =
      (impl_twice (recallSameHeader hd.gen_args hd.more hd.where_args c)).bind
        fun o1 =>
      (impl_twice (recallMoreHeaders hs c)).bind fun o2 =>
      (impl_twice extra).bind fun o3 =>
      some (emitBlock hd.gen_args hd.first hd.where_args c ++ o1 ++ o2 ++ o3) := by
  rw [impl_twice.eq_def]
  split
  · rename_i heq
    simp at heq
  · rename_i t2 ts2 heq
    cases heq
    split
    · rename_i extra2 heq2
      rw [h2] at heq2
      exact absurd heq2 (by simp)
    · split
      · simp [headIsBrace] at hnb
      · split
        · rename_i hd2 hs2 c2 extra2 heq4
          rw [h4] at heq4
          simp only [Option.some.injEq, Prod.mk.injEq] at heq4
          obtain ⟨ha, hb, hc2, hd4⟩ := heq4
          subst ha
          subst hb
          subst hc2
          subst hd4
          rfl
        · rename_i heq4
          rw [h4] at heq4
          exact absurd heq4 (by simp)

/-!
## Reference expansion

`expandTargets`/`expandHeaderAll`/`expandHeadersAll`/`expandProgram`
compute, structurally, the concatenation of emitted blocks: one
`emitBlock` per `(header, target)` pair, in source order.  The
simulation theorem below proves `impl_twice` produces exactly this.
-/

def expandTargets (g : Option (List Tok)) (es : List TargetSpec)
    (w : Option (List Tok)) (c : List (List Tok)) : List Tok :=
  match es with
  | [] => []
  | e :: es => emitBlock g e w c ++ expandTargets g es w c

def expandHeaderAll (h : Header) (c : List (List Tok)) : List Tok :=
  emitBlock h.gen_args h.first h.where_args c ++
    expandTargets h.gen_args h.more h.where_args c

def expandHeadersAll (hs : List Header) (c : List (List Tok)) : List Tok :=
  match hs with
  | [] => []
  | h :: hs => expandHeaderAll h c ++ expandHeadersAll hs c

def expandGroup (g : DupGroup) : List Tok :=
  expandHeaderAll g.first_header g.content ++
    expandHeadersAll g.more_headers g.content

def expandProgram : List DupGroup → List Tok
  | [] => []
  | g :: gs => expandGroup g ++ expandProgram gs

/-! Shapes of the recursive invocations. -/

theorem recallSameHeader_nil (g : Option (List Tok)) (w : Option (List Tok))
    (c : List (List Tok)) (hg : genListOk g = true) :
    impl_twice (recallSameHeader g [] w c) = some [] := by
  have hltW : headIsLt (serialWhereParens w ++ [Tok.braces c]) = false := by
    cases w with
    | none => rfl
    | some ws => rfl
  have hwB : headIsWhereKw ([Tok.braces c] : List Tok) = false := rfl
  have hser : recallSameHeader g [] w c =
      Tok.ident "impl" :: (serialGens g ++ (serialWhereParens w ++ [Tok.braces c])) := by
    simp [recallSameHeader, serialTargetList]
  have h2 : parseRule2 (Tok.ident "impl" ::
      (serialGens g ++ (serialWhereParens w ++ [Tok.braces c]))) = some [] := by
    rw [parseRule2_impl_unfold, parseGenerics_complete g _ hg hltW]
    simp only [Option.some_bind]
    rw [parseWhereOpt_complete w _ hwB]
    rfl
  rw [hser, impl_twice_rule2 _ _ _ h2, impl_twice_nil]

theorem recallSameHeader_cons (g : Option (List Tok)) (e : TargetSpec)
    (es : List TargetSpec) (w : Option (List Tok)) (c : List (List Tok)) :
    recallSameHeader g (e :: es) w c =
      serialProgram [⟨⟨g, e, es, w⟩, [], c⟩] := by
  simp [recallSameHeader, serialProgram, serialGroup, serialHeader,
    serialHeaders, serialTargetList]

theorem recallMoreHeaders_nil (c : List (List Tok)) :
    impl_twice (recallMoreHeaders [] c) = some [] := by
  have : recallMoreHeaders [] c = Tok.braces c :: [] := by
    simp [recallMoreHeaders, serialHeaders]
  rw [this, impl_twice_rule3, impl_twice_nil]

theorem recallMoreHeaders_cons (h2 : Header) (hs2 : List Header)
    (c : List (List Tok)) :
    recallMoreHeaders (h2 :: hs2) c = serialProgram [⟨h2, hs2, c⟩] := by
  simp [recallMoreHeaders, serialProgram, serialGroup, serialHeaders]

theorem serialProgram_cons (hd : Header) (hs : List Header)
    (c : List (List Tok)) (gs : List DupGroup) :
    serialProgram (⟨hd, hs, c⟩ :: gs) =
      serialHeader hd ++ serialHeaders hs ++ Tok.braces c :: serialProgram gs := by
  simp [serialProgram, serialGroup]

/-- Simulation: on any well-formed serialized program, the rewriter
succeeds and produces exactly the structural cross-product expansion. -/
theorem impl_twice_serial (n : Nat) :
    ∀ P : List DupGroup, (serialProgram P).length ≤ n → programOk P = true →
      impl_twice (serialProgram P) = some (expandProgram P) := by
  induction n with
  | zero =>
    intro P hlen hok
    cases P with
    | nil => simpa [serialProgram, expandProgram] using impl_twice_nil
    | cons g gs =>
      exfalso
      obtain ⟨hd, hs, c⟩ := g
      rw [serialProgram_cons] at hlen
      have := serialHeader_two hd
      simp only [List.length_append, List.length_cons] at hlen
      omega
  | succ n ih =>
    intro P hlen hok
    cases P with
    | nil => simpa [serialProgram, expandProgram] using impl_twice_nil
    | cons g gs =>
      obtain ⟨hd, hs, c⟩ := g
      simp only [programOk, List.all_cons, Bool.and_eq_true] at hok
      obtain ⟨hgok, hgs⟩ := hok
      simp only [groupOk, Bool.and_eq_true] at hgok
      obtain ⟨hhd, hhs⟩ := hgok
      have hgs2 : programOk gs = true := hgs
      have h4 := parseRule4_complete hd hs c (serialProgram gs) hhd hhs
      have h2 := parseRule2_none_of_header hd
        (serialHeaders hs ++ Tok.braces c :: serialProgram gs) hhd
      rw [← List.append_assoc] at h2
      have hlen4 := parseRule4_calls_length _ hd hs c (serialProgram gs) h4
      rw [serialProgram_cons] at hlen
      have hcons : serialHeader hd ++ serialHeaders hs ++
          Tok.braces c :: serialProgram gs =
          Tok.ident "impl" :: ((serialGens hd.gen_args ++ serialTarget hd.first ++
            serialMoreTargets hd.more ++ serialWhereParens hd.where_args) ++
            (serialHeaders hs ++ Tok.braces c :: serialProgram gs)) := by
        simp [serialHeader]
      rw [hcons] at h2 h4
      have hrule := impl_twice_rule4 _ _ hd hs c (serialProgram gs) h2 rfl h4
      have ho1 : impl_twice (recallSameHeader hd.gen_args hd.more hd.where_args c) =
          some (expandTargets hd.gen_args hd.more hd.where_args c) := by
        cases hm : hd.more with
        | nil =>
          have hg : genListOk hd.gen_args = true := by
            simp only [headerOk, Bool.and_eq_true] at hhd
            exact hhd.1.1
          rw [recallSameHeader_nil hd.gen_args hd.where_args c hg, expandTargets]
        | cons e es =>
          rw [recallSameHeader_cons]
          have hok2 : programOk
              [⟨⟨hd.gen_args, e, es, hd.where_args⟩, [], c⟩] = true := by
            simp only [headerOk, Bool.and_eq_true] at hhd
            rw [hm] at hhd
            simp only [List.all_cons, Bool.and_eq_true] at hhd
            simp [programOk, groupOk, headerOk, hhd.1.1,
              hhd.2.1, hhd.2.2]
          have hlen2 : (serialProgram
              [⟨⟨hd.gen_args, e, es, hd.where_args⟩, [], c⟩]).length ≤ n := by
            have hx := hlen4.1
            rw [hm, recallSameHeader_cons] at hx
            omega
          rw [ih _ hlen2 hok2]
          simp [expandProgram, expandGroup, expandHeaderAll, expandHeadersAll,
            expandTargets]
      have ho2 : impl_twice (recallMoreHeaders hs c) =
          some (expandHeadersAll hs c) := by
        cases hs with
        | nil =>
          rw [recallMoreHeaders_nil, expandHeadersAll]
        | cons h2h hs2 =>
          rw [recallMoreHeaders_cons]
          have hok2 : programOk [⟨h2h, hs2, c⟩] = true := by
            simp only [List.all_cons, Bool.and_eq_true] at hhs
            simp [programOk, groupOk, hhs.1, hhs.2]
          have hlen2 : (serialProgram [⟨h2h, hs2, c⟩]).length ≤ n := by
            have hx := hlen4.2.1
            rw [recallMoreHeaders_cons] at hx
            omega
          rw [ih _ hlen2 hok2]
          simp [expandProgram, expandGroup, expandHeaderAll, expandHeadersAll]
      have ho3 : impl_twice (serialProgram gs) = some (expandProgram gs) := by
        have hx := hlen4.2.2
        exact ih gs (by omega) hgs2
      rw [serialProgram_cons, hcons, hrule, ho1, ho2, ho3]
      simp only [Option.some_bind, Option.some.injEq]
      simp [expandProgram, expandGroup, expandHeaderAll]

/-- Convenience wrapper of the simulation theorem. -/
theorem impl_twice_expand (P : List DupGroup) (h : programOk P = true) :
    impl_twice (serialProgram P) = some (expandProgram P) :=
  impl_twice_serial (serialProgram P).length P le_rfl h

/-- When no production matches, the whole invocation fails. -/
theorem impl_twice_none (t : Tok) (rest : List Tok)
    (h2 : parseRule2 (t :: rest) = none)
    (hnb : headIsBrace (t :: rest) = false)
    (h4 : parseRule4 (t :: rest) = none) :
    impl_twice (t :: rest) = none := by
  rw [impl_twice.eq_def]
  split
  · rename_i heq
    simp at heq
  · rename_i t2 ts2 heq
    cases heq
    split
    · rename_i extra2 heq2
      rw [h2] at heq2
      exact absurd heq2 (by simp)
    · split
      · simp [headIsBrace] at hnb
      · split
        · rename_i hd2 hs2 c2 extra2 heq4
          rw [h4] at heq4
          exact absurd heq4 (by simp)
        · rfl

def tokIsParens : Tok → Bool
  | Tok.parens _ => true
  | _ => false

theorem parseWhereOpt_where_nonparens (t : Tok) (rest : List Tok)
    (ht : tokIsParens t = false) :
    parseWhereOpt (Tok.ident "where" :: t :: rest) = none := by
  cases t with
  | parens ws => simp [tokIsParens] at ht
  | ident s => rfl
  | punct s => rfl
  | lifetime s => rfl
  | lit s => rfl
  | braces a => rfl
  | brackets a => rfl

theorem expandTargets_eq_join (g : Option (List Tok)) (es : List TargetSpec)
    (w : Option (List Tok)) (c : List (List Tok)) :
    expandTargets g es w c = (es.map fun t => emitBlock g t w c).join := by
  induction es with
  | nil => simp [expandTargets]
  | cons e es ih => simp [expandTargets, ih]

theorem serialProgram_append (P1 P2 : List DupGroup) :
    serialProgram (P1 ++ P2) = serialProgram P1 ++ serialProgram P2 := by
  induction P1 with
  | nil => simp [serialProgram]
  | cons g gs ih => simp [serialProgram, ih]

theorem expandProgram_append (P1 P2 : List DupGroup) :
    expandProgram (P1 ++ P2) = expandProgram P1 ++ expandProgram P2 := by
  induction P1 with
  | nil => simp [expandProgram]
  | cons g gs ih => simp [expandProgram, ih]

/-!
## The spec's hand-written block

`handwrittenBlock` is modelled from the spec's words (§6, Expansion
output): one declaration block of the form
`impl GenericParams? (TraitRef for)? Target WhereTokens? { Item* }` —
what a programmer would have written by hand for a single target.
The refinement theorems for C3 compare it with `emitBlock`, which was
transcribed from the rewriter's emission on line 241.
-/

def handwrittenBlock (g : Option (List Tok))
    (traitRef : Option (String × Option (List Tok)))
    (tyName : String) (tyArgs : Option (List Tok))
    (w : Option (List Tok)) (items : List (List Tok)) : List Tok :=
  Tok.ident "impl" :: serialGens g ++
    (match traitRef with
     | none => []
     | some (tn, tg) => Tok.ident tn :: serialGens tg ++ [Tok.ident "for"]) ++
    Tok.ident tyName :: serialGens tyArgs ++
    serialWhereBare w ++ [Tok.braces items]

/-- The trait reference of a target-list element: when a `for` part is
present, the element's leading name/generics name the trait. -/
def traitRefOf (e : TargetSpec) : Option (String × Option (List Tok)) :=
  match e.ename with
  | some _ => some (e.name, e.name_param)
  | none => none

/-- The target type name of a target-list element. -/
def typeNameOf (e : TargetSpec) : String :=
  match e.ename with
  | some (en, _) => en
  | none => e.name

/-- The target type generics of a target-list element. -/
def typeArgsOf (e : TargetSpec) : Option (List Tok) :=
  match e.ename with
  | some (_, ep) => ep
  | none => e.name_param

theorem emitBlock_eq_handwritten (g : Option (List Tok)) (e : TargetSpec)
    (w : Option (List Tok)) (c : List (List Tok)) :
    emitBlock g e w c =
      handwrittenBlock g (traitRefOf e) (typeNameOf e) (typeArgsOf e) w c := by
  obtain ⟨n, np, fp⟩ := e
  cases fp with
  | none => simp [emitBlock, handwrittenBlock, traitRefOf, typeNameOf, typeArgsOf,
      serialTarget, serialForPart]
  | some p =>
    obtain ⟨en, ep⟩ := p
    simp [emitBlock, handwrittenBlock, traitRefOf, typeNameOf, typeArgsOf,
      serialTarget, serialForPart]

/-!
## The claims
-/

/-- C9: a braced body with zero preceding headers (an empty group) is
matched and silently discarded — no output, no error — and processing
continues with the remaining input. -/
theorem claim_C9 (items : List (List Tok)) (extra : List Tok) :
    impl_twice (Tok.braces items :: extra) = impl_twice extra :=
  impl_twice_rule3 items extra

/-- C10: an input beginning with a header naming no targets at all
(`impl`, optional generic list, optional parenthesized where clause)
immediately followed by a braced body is accepted, produces no
declarations for that header/body pair, and processing continues with
the remaining input. -/
theorem claim_C10 (g w : Option (List Tok)) (items : List (List Tok))
    (extra : List Tok) (hg : genListOk g = true) :
    impl_twice (Tok.ident "impl" :: serialGens g ++ serialWhereParens w ++
      Tok.braces items :: extra) = impl_twice extra := by
  have hltW : headIsLt (serialWhereParens w ++ Tok.braces items :: extra) = false := by
    cases w with
    | none => rfl
    | some ws => rfl
  have hwB : headIsWhereKw (Tok.braces items :: extra) = false := rfl
  have h2 : parseRule2 (Tok.ident "impl" :: (serialGens g ++
      (serialWhereParens w ++ Tok.braces items :: extra))) = some extra := by
    rw [parseRule2_impl_unfold, parseGenerics_complete g _ hg hltW]
    simp only [Option.some_bind]
    rw [parseWhereOpt_complete w _ hwB]
    rfl
  have hser : Tok.ident "impl" :: serialGens g ++ serialWhereParens w ++
      Tok.braces items :: extra = Tok.ident "impl" :: (serialGens g ++
      (serialWhereParens w ++ Tok.braces items :: extra)) := by
    simp
  rw [hser, impl_twice_rule2 _ _ _ h2]

/-- Witness for C10 at `impl<T> where (T : Clone) {} `. -/
theorem claim_C10_witness :
    genListOk (some [Tok.ident "T"]) = true ∧
    impl_twice [Tok.ident "impl", Tok.punct "<", Tok.ident "T", Tok.punct ">",
      Tok.ident "where", Tok.parens [Tok.ident "T", Tok.punct ":", Tok.ident "Clone"],
      Tok.braces []] = impl_twice [] :=
  ⟨by decide, claim_C10 (some [Tok.ident "T"])
    (some [Tok.ident "T", Tok.punct ":", Tok.ident "Clone"]) [] [] (by decide)⟩

/-- C5: groups are processed strictly left to right; the output is the
concatenation of each group's expansion in order (and, within a group,
targets in order — `expandTargets` walks the target list in order), with
no reordering and no deduplication. -/
theorem claim_C5 (P1 P2 : List DupGroup) (h : programOk (P1 ++ P2) = true) :
    impl_twice (serialProgram P1 ++ serialProgram P2) =
      some (expandProgram P1 ++ expandProgram P2) := by
  rw [← serialProgram_append, ← expandProgram_append]
  exact impl_twice_expand _ h

/-- Witness for C5: two one-header groups, `impl A { fa }` then
`impl B { fb }`, expand in order. -/
theorem claim_C5_witness :
    programOk ([⟨⟨none, ⟨"A", none, none⟩, [], none⟩, [], [[Tok.ident "fa"]]⟩] ++
      [⟨⟨none, ⟨"B", none, none⟩, [], none⟩, [], [[Tok.ident "fb"]]⟩]) = true ∧
    impl_twice
      ([Tok.ident "impl", Tok.ident "A", Tok.braces [[Tok.ident "fa"]]] ++
       [Tok.ident "impl", Tok.ident "B", Tok.braces [[Tok.ident "fb"]]]) =
      some ([Tok.ident "impl", Tok.ident "A", Tok.braces [[Tok.ident "fa"]]] ++
        [Tok.ident "impl", Tok.ident "B", Tok.braces [[Tok.ident "fb"]]]) :=
  ⟨by decide,
   claim_C5 [⟨⟨none, ⟨"A", none, none⟩, [], none⟩, [], [[Tok.ident "fa"]]⟩]
     [⟨⟨none, ⟨"B", none, none⟩, [], none⟩, [], [[Tok.ident "fb"]]⟩] (by decide)⟩

/-- C2: a group whose single header lists `k` targets expands to exactly
`k` blocks, one per target in order; every block carries the same
generics, the same (bare) where tokens and an identical verbatim copy of
the body, differing only in the target-list element. -/
theorem claim_C2 (g w : Option (List Tok)) (e : TargetSpec)
    (es : List TargetSpec) (c : List (List Tok))
    (hok : headerOk ⟨g, e, es, w⟩ = true) :
    impl_twice (serialProgram [⟨⟨g, e, es, w⟩, [], c⟩]) =
      some (((e :: es).map fun t => emitBlock g t w c).join) ∧
    ((e :: es).map fun t => emitBlock g t w c).length = (e :: es).length ∧
    ∀ t : TargetSpec, emitBlock g t w c =
      Tok.ident "impl" :: serialGens g ++ serialTarget t ++ serialWhereBare w ++
        [Tok.braces c] := by
  refine ⟨?_, by simp, fun t => rfl⟩
  rw [impl_twice_expand _ (by simp [programOk, groupOk, hok])]
  simp [expandProgram, expandGroup, expandHeaderAll, expandHeadersAll,
    expandTargets_eq_join]

/-- Witness for C2 at `impl<T> A<T>, B<T>, C2<T> where (T : X) { fa }`
(three targets). -/
theorem claim_C2_witness :
    headerOk ⟨some [Tok.ident "T"], ⟨"A", some [Tok.ident "T"], none⟩,
      [⟨"B", some [Tok.ident "T"], none⟩, ⟨"C2", some [Tok.ident "T"], none⟩],
      some [Tok.ident "T", Tok.punct ":", Tok.ident "X"]⟩ = true ∧
    impl_twice (serialProgram [⟨⟨some [Tok.ident "T"],
      ⟨"A", some [Tok.ident "T"], none⟩,
      [⟨"B", some [Tok.ident "T"], none⟩, ⟨"C2", some [Tok.ident "T"], none⟩],
      some [Tok.ident "T", Tok.punct ":", Tok.ident "X"]⟩, [],
      [[Tok.ident "fa"]]⟩]) =
      some ((([⟨"A", some [Tok.ident "T"], none⟩, ⟨"B", some [Tok.ident "T"], none⟩,
        ⟨"C2", some [Tok.ident "T"], none⟩] : List TargetSpec).map fun t =>
          emitBlock (some [Tok.ident "T"]) t
            (some [Tok.ident "T", Tok.punct ":", Tok.ident "X"])
            [[Tok.ident "fa"]]).join) :=
  ⟨by decide,
   (claim_C2 (some [Tok.ident "T"])
     (some [Tok.ident "T", Tok.punct ":", Tok.ident "X"])
     ⟨"A", some [Tok.ident "T"], none⟩
     [⟨"B", some [Tok.ident "T"], none⟩, ⟨"C2", some [Tok.ident "T"], none⟩]
     [[Tok.ident "fa"]] (by decide)).1⟩

/-- C3: the block emitted for a `(header, target)` pair is exactly the
hand-written form `impl GenericParams? (TraitRef for)? Target
WhereTokens? { Item* }` described by the spec, and a single-target
header expands to exactly that one block and nothing more. -/
theorem claim_C3 (g w : Option (List Tok)) (e : TargetSpec)
    (c : List (List Tok)) (hok : headerOk ⟨g, e, [], w⟩ = true) :
    impl_twice (serialProgram [⟨⟨g, e, [], w⟩, [], c⟩]) =
      some (handwrittenBlock g (traitRefOf e) (typeNameOf e) (typeArgsOf e) w c) ∧
    ∀ e2 : TargetSpec, emitBlock g e2 w c =
      handwrittenBlock g (traitRefOf e2) (typeNameOf e2) (typeArgsOf e2) w c := by
  refine ⟨?_, fun e2 => emitBlock_eq_handwritten g e2 w c⟩
  rw [impl_twice_expand _ (by simp [programOk, groupOk, hok])]
  simp [expandProgram, expandGroup, expandHeaderAll, expandHeadersAll,
    expandTargets, emitBlock_eq_handwritten]

/-- Witness for C3 at `impl<T> Dbg<T> for A<T> { fa }`. -/
theorem claim_C3_witness :
    headerOk ⟨some [Tok.ident "T"],
      ⟨"Dbg", some [Tok.ident "T"], some ("A", some [Tok.ident "T"])⟩,
      [], none⟩ = true ∧
    impl_twice (serialProgram [⟨⟨some [Tok.ident "T"],
      ⟨"Dbg", some [Tok.ident "T"], some ("A", some [Tok.ident "T"])⟩,
      [], none⟩, [], [[Tok.ident "fa"]]⟩]) =
      some (handwrittenBlock (some [Tok.ident "T"])
        (some ("Dbg", some [Tok.ident "T"])) "A" (some [Tok.ident "T"])
        none [[Tok.ident "fa"]]) :=
  ⟨by decide,
   (claim_C3 (some [Tok.ident "T"]) none
     ⟨"Dbg", some [Tok.ident "T"], some ("A", some [Tok.ident "T"])⟩
     [[Tok.ident "fa"]] (by decide)).1⟩

/-- C4: a group with two headers, each with its own generics and where
clause and one target apiece, expands to two blocks, each built from its
own header's generics and where clause only. -/
theorem claim_C4 (g1 g2 w1 w2 : Option (List Tok)) (e1 e2 : TargetSpec)
    (c : List (List Tok))
    (h1 : headerOk ⟨g1, e1, [], w1⟩ = true)
    (h2 : headerOk ⟨g2, e2, [], w2⟩ = true) :
    impl_twice (serialProgram [⟨⟨g1, e1, [], w1⟩, [⟨g2, e2, [], w2⟩], c⟩]) =
      some (emitBlock g1 e1 w1 c ++ emitBlock g2 e2 w2 c) := by
  rw [impl_twice_expand _ (by simp [programOk, groupOk, h1, h2])]
  simp [expandProgram, expandGroup, expandHeaderAll, expandHeadersAll,
    expandTargets]

/-- Witness for C4: `impl<A2, B2> Cx<A2, B2> where (A2 : K)
impl<T> S<T> where (T : K) { fa }` — no cross-contamination. -/
theorem claim_C4_witness :
    headerOk ⟨some [Tok.ident "A2", Tok.ident "B2"],
      ⟨"Cx", some [Tok.ident "A2", Tok.ident "B2"], none⟩, [],
      some [Tok.ident "A2", Tok.punct ":", Tok.ident "K"]⟩ = true ∧
    headerOk ⟨some [Tok.ident "T"], ⟨"S", some [Tok.ident "T"], none⟩, [],
      some [Tok.ident "T", Tok.punct ":", Tok.ident "K"]⟩ = true ∧
    impl_twice (serialProgram [⟨⟨some [Tok.ident "A2", Tok.ident "B2"],
        ⟨"Cx", some [Tok.ident "A2", Tok.ident "B2"], none⟩, [],
        some [Tok.ident "A2", Tok.punct ":", Tok.ident "K"]⟩,
      [⟨some [Tok.ident "T"], ⟨"S", some [Tok.ident "T"], none⟩, [],
        some [Tok.ident "T", Tok.punct ":", Tok.ident "K"]⟩],
      [[Tok.ident "fa"]]⟩]) =
      some (emitBlock (some [Tok.ident "A2", Tok.ident "B2"])
          ⟨"Cx", some [Tok.ident "A2", Tok.ident "B2"], none⟩
          (some [Tok.ident "A2", Tok.punct ":", Tok.ident "K"]) [[Tok.ident "fa"]] ++
        emitBlock (some [Tok.ident "T"]) ⟨"S", some [Tok.ident "T"], none⟩
          (some [Tok.ident "T", Tok.punct ":", Tok.ident "K"]) [[Tok.ident "fa"]]) :=
  ⟨by decide, by decide,
   claim_C4 (some [Tok.ident "A2", Tok.ident "B2"]) (some [Tok.ident "T"])
     (some [Tok.ident "A2", Tok.punct ":", Tok.ident "K"])
     (some [Tok.ident "T", Tok.punct ":", Tok.ident "K"])
     ⟨"Cx", some [Tok.ident "A2", Tok.ident "B2"], none⟩
     ⟨"S", some [Tok.ident "T"], none⟩ [[Tok.ident "fa"]] (by decide) (by decide)⟩

/-- C1 counterexample: the header `impl Trait for T1, T2 { }` does *not*
propagate `Trait for` to `T2`: the second emitted block is the plain
inherent block `impl T2 { }`, containing no `for` token at all.  (The
grammar attaches an optional `for`-part to each comma-separated element
individually — see the crate documentation's own example, which writes
`Debug for` in front of every target.) -/
theorem claim_C1_counterexample :
    impl_twice [Tok.ident "impl", Tok.ident "Trait", Tok.ident "for",
      Tok.ident "T1", Tok.punct ",", Tok.ident "T2", Tok.braces []] =
      some ([Tok.ident "impl", Tok.ident "Trait", Tok.ident "for", Tok.ident "T1",
        Tok.braces []] ++ [Tok.ident "impl", Tok.ident "T2", Tok.braces []]) ∧
    Tok.ident "for" ∉ [Tok.ident "impl", Tok.ident "T2", Tok.braces []] := by
  constructor
  · exact impl_twice_expand [⟨⟨none, ⟨"Trait", none, some ("T1", none)⟩,
      [⟨"T2", none, none⟩], none⟩, [], []⟩] (by decide)
  · decide

/-- C1 (amended): the trait reference is per target-list *element*, not
per header.  Every element that carries its own `TraitRef for` expands
to a block with `TraitRef for` immediately before its target; an element
without one expands to a plain block with no trait prefix — also when
other elements of the same header have one; a header with no trait
references anywhere produces only plain blocks. -/
theorem claim_C1_amended (g w : Option (List Tok)) (e : TargetSpec)
    (es : List TargetSpec) (c : List (List Tok))
    (hok : headerOk ⟨g, e, es, w⟩ = true) :
    impl_twice (serialProgram [⟨⟨g, e, es, w⟩, [], c⟩]) =
      some (((e :: es).map fun t => emitBlock g t w c).join) ∧
    (∀ t : TargetSpec, ∀ en : String, ∀ ep : Option (List Tok),
      t.ename = some (en, ep) →
      emitBlock g t w c =
        Tok.ident "impl" :: serialGens g ++
          (Tok.ident t.name :: serialGens t.name_param ++
            (Tok.ident "for" :: Tok.ident en :: serialGens ep)) ++
          serialWhereBare w ++ [Tok.braces c]) ∧
    (∀ t : TargetSpec, t.ename = none →
      emitBlock g t w c =
        Tok.ident "impl" :: serialGens g ++
          (Tok.ident t.name :: serialGens t.name_param) ++
          serialWhereBare w ++ [Tok.braces c]) := by
  refine ⟨?_, ?_, ?_⟩
  · rw [impl_twice_expand _ (by simp [programOk, groupOk, hok])]
    simp [expandProgram, expandGroup, expandHeaderAll, expandHeadersAll,
      expandTargets_eq_join]
  · intro t en ep h
    simp [emitBlock, serialTarget, serialForPart, h]
  · intro t h
    simp [emitBlock, serialTarget, serialForPart, h]

/-- Witness for the amended C1 at
`impl Trait for T1, Trait for T2 { }` (trait repeated per element). -/
theorem claim_C1_witness :
    headerOk ⟨none, ⟨"Trait", none, some ("T1", none)⟩,
      [⟨"Trait", none, some ("T2", none)⟩], none⟩ = true ∧
    impl_twice [Tok.ident "impl", Tok.ident "Trait", Tok.ident "for",
      Tok.ident "T1", Tok.punct ",", Tok.ident "Trait", Tok.ident "for",
      Tok.ident "T2", Tok.braces []] =
      some ([Tok.ident "impl", Tok.ident "Trait", Tok.ident "for", Tok.ident "T1",
        Tok.braces []] ++
        ([Tok.ident "impl", Tok.ident "Trait", Tok.ident "for", Tok.ident "T2",
          Tok.braces []] ++ [])) :=
  ⟨by decide,
   (claim_C1_amended none none ⟨"Trait", none, some ("T1", none)⟩
     [⟨"Trait", none, some ("T2", none)⟩] [] (by decide)).1⟩

/-- C6 counterexample: `impl<T : Clone> A { }` is *rejected*: the
generic-argument matcher `$($gen_args:tt),*` only accepts comma-separated
single token trees, and `T : Clone` is three.  (The crate's own usage
documentation puts bounds in `where (…)`, never in the generic list.) -/
theorem claim_C6_counterexample :
    impl_twice [Tok.ident "impl", Tok.punct "<", Tok.ident "T", Tok.punct ":",
      Tok.ident "Clone", Tok.punct ">", Tok.ident "A", Tok.braces []] = none := by
  exact impl_twice_none _ _ rfl rfl rfl

/-- C6 (amended): a generic-parameter list must be a comma-separated
sequence of *single* token trees (e.g. single lifetime or identifier
tokens); such a list is treated opaquely and copied verbatim — between
the same `<`/`>` and commas — into every expansion of its header. -/
theorem claim_C6_amended (l : List Tok) (w : Option (List Tok))
    (e : TargetSpec) (es : List TargetSpec) (c : List (List Tok))
    (hok : headerOk ⟨some l, e, es, w⟩ = true) :
    impl_twice (serialProgram [⟨⟨some l, e, es, w⟩, [], c⟩]) =
      some (((e :: es).map fun t => emitBlock (some l) t w c).join) ∧
    ∀ t : TargetSpec, emitBlock (some l) t w c =
      Tok.ident "impl" :: (Tok.punct "<" :: serialGenListInner l ++
        [Tok.punct ">"]) ++ serialTarget t ++ serialWhereBare w ++
        [Tok.braces c] := by
  refine ⟨?_, fun t => rfl⟩
  rw [impl_twice_expand _ (by simp [programOk, groupOk, hok])]
  simp [expandProgram, expandGroup, expandHeaderAll, expandHeadersAll,
    expandTargets_eq_join]

/-- Witness for the amended C6 at `impl<..lt, T> A<..lt, T> { }` (a lifetime
and a type parameter: single token trees, copied verbatim). -/
theorem claim_C6_witness :
    headerOk ⟨some [Tok.lifetime "lt", Tok.ident "T"],
      ⟨"A", some [Tok.lifetime "lt", Tok.ident "T"], none⟩, [], none⟩ = true ∧
    impl_twice (serialProgram [⟨⟨some [Tok.lifetime "lt", Tok.ident "T"],
      ⟨"A", some [Tok.lifetime "lt", Tok.ident "T"], none⟩, [], none⟩, [],
      [[Tok.ident "fa"]]⟩]) =
      some ((([⟨"A", some [Tok.lifetime "lt", Tok.ident "T"], none⟩] :
        List TargetSpec).map fun t =>
          emitBlock (some [Tok.lifetime "lt", Tok.ident "T"]) t none
            [[Tok.ident "fa"]]).join) :=
  ⟨by decide,
   (claim_C6_amended [Tok.lifetime "lt", Tok.ident "T"] none
     ⟨"A", some [Tok.lifetime "lt", Tok.ident "T"], none⟩ [] [[Tok.ident "fa"]]
     (by decide)).1⟩

theorem parseRule4_unfold (toks : List Tok) :
    parseRule4 toks =
      ((parseHeader toks).bind fun p1 =>
       (parseHeaders p1.2).bind fun p2 =>
       match p2.2 with
       | Tok.braces content :: extra => some (p1.1, p2.1, content, extra)
       | _ => none) := rfl

/-- A `where` keyword followed by anything but a parenthesized group
makes every production fail. -/
theorem where_unparenthesized_fails (n : String) (hn : ¬ n = "where")
    (t : Tok) (ht : tokIsParens t = false) (rest : List Tok) :
    impl_twice (Tok.ident "impl" :: Tok.ident n :: Tok.ident "where" ::
      t :: rest) = none := by
  have h2 : parseRule2 (Tok.ident "impl" :: Tok.ident n :: Tok.ident "where" ::
      t :: rest) = none := by
    rw [parseRule2_impl_unfold,
      parseGenerics_not_lt (Tok.ident n :: Tok.ident "where" :: t :: rest) rfl]
    simp only [Option.some_bind]
    rw [parseWhereOpt_not_where (Tok.ident n :: Tok.ident "where" :: t :: rest)
      (by simp [headIsWhereKw, hn])]
    rfl
  have h4 : parseRule4 (Tok.ident "impl" :: Tok.ident n :: Tok.ident "where" ::
      t :: rest) = none := by
    rw [parseRule4_unfold, parseHeader_impl_unfold,
      parseGenerics_not_lt (Tok.ident n :: Tok.ident "where" :: t :: rest) rfl]
    simp only [Option.some_bind]
    rw [parseTarget_ident_unfold,
      parseGenerics_not_lt (Tok.ident "where" :: t :: rest) rfl]
    simp only [Option.some_bind]
    rw [parseForPart_not_for (Tok.ident "where" :: t :: rest) rfl]
    simp only [Option.some_bind]
    rw [parseMoreTargets_not_comma (Tok.ident "where" :: t :: rest) rfl]
    simp only [Option.some_bind]
    rw [parseWhereOpt_where_nonparens t rest ht]
    rfl
  exact impl_twice_none _ _ h2 rfl h4

/-- C7: a where clause must be written `where ( tokens )`; the
parenthesized tokens are copied, with the parentheses stripped, verbatim
into every expansion of the header, and a `where` followed by anything
but a parenthesized group makes the whole invocation fail. -/
theorem claim_C7 :
    (∀ (g : Option (List Tok)) (ws : List Tok) (e : TargetSpec)
      (es : List TargetSpec) (c : List (List Tok)),
      headerOk ⟨g, e, es, some ws⟩ = true →
      impl_twice (serialProgram [⟨⟨g, e, es, some ws⟩, [], c⟩]) =
        some (((e :: es).map fun t => emitBlock g t (some ws) c).join) ∧
      ∀ t : TargetSpec, emitBlock g t (some ws) c =
        Tok.ident "impl" :: serialGens g ++ serialTarget t ++
          (Tok.ident "where" :: ws) ++ [Tok.braces c]) ∧
    (∀ (n : String), ¬ n = "where" → ∀ (t : Tok), tokIsParens t = false →
      ∀ rest : List Tok,
      impl_twice (Tok.ident "impl" :: Tok.ident n :: Tok.ident "where" ::
        t :: rest) = none) := by
  constructor
  · intro g ws e es c hok
    refine ⟨?_, fun t => rfl⟩
    rw [impl_twice_expand _ (by simp [programOk, groupOk, hok])]
    simp [expandProgram, expandGroup, expandHeaderAll, expandHeadersAll,
      expandTargets_eq_join]
  · intro n hn t ht rest
    exact where_unparenthesized_fails n hn t ht rest

/-- Witness for C7: the positive half at
`impl A where (T : Clone) { fa }`, the negative half at
`impl A where T : Clone { fa }` (no parentheses — rejected). -/
theorem claim_C7_witness :
    (headerOk ⟨none, ⟨"A", none, none⟩, [],
      some [Tok.ident "T", Tok.punct ":", Tok.ident "Clone"]⟩ = true ∧
    impl_twice [Tok.ident "impl", Tok.ident "A", Tok.ident "where",
      Tok.parens [Tok.ident "T", Tok.punct ":", Tok.ident "Clone"],
      Tok.braces [[Tok.ident "fa"]]] =
      some [Tok.ident "impl", Tok.ident "A", Tok.ident "where", Tok.ident "T",
        Tok.punct ":", Tok.ident "Clone", Tok.braces [[Tok.ident "fa"]]]) ∧
    impl_twice [Tok.ident "impl", Tok.ident "A", Tok.ident "where",
      Tok.ident "T", Tok.punct ":", Tok.ident "Clone",
      Tok.braces [[Tok.ident "fa"]]] = none := by
  refine ⟨⟨by decide, ?_⟩, ?_⟩
  · have := (claim_C7.1 none [Tok.ident "T", Tok.punct ":", Tok.ident "Clone"]
      ⟨"A", none, none⟩ [] [[Tok.ident "fa"]] (by decide)).1
    simpa using this
  · exact claim_C7.2 "A" (by decide) (Tok.ident "T") (by decide)
      [Tok.punct ":", Tok.ident "Clone", Tok.braces [[Tok.ident "fa"]]]

/-- A `::` directly after the first name of a target list makes every
production fail: no rule can consume the path separator. -/
theorem qualified_name_fails (a : String) (ha : ¬ a = "where") (rest : List Tok) :
    impl_twice (Tok.ident "impl" :: Tok.ident a :: Tok.punct "::" :: rest) = none := by
  have h2 : parseRule2 (Tok.ident "impl" :: Tok.ident a :: Tok.punct "::" ::
      rest) = none := by
    rw [parseRule2_impl_unfold,
      parseGenerics_not_lt (Tok.ident a :: Tok.punct "::" :: rest) rfl]
    simp only [Option.some_bind]
    rw [parseWhereOpt_not_where (Tok.ident a :: Tok.punct "::" :: rest)
      (by simp [headIsWhereKw, ha])]
    rfl
  have h4 : parseRule4 (Tok.ident "impl" :: Tok.ident a :: Tok.punct "::" ::
      rest) = none := by
    rw [parseRule4_unfold, parseHeader_impl_unfold,
      parseGenerics_not_lt (Tok.ident a :: Tok.punct "::" :: rest) rfl]
    simp only [Option.some_bind]
    rw [parseTarget_ident_unfold,
      parseGenerics_not_lt (Tok.punct "::" :: rest) rfl]
    simp only [Option.some_bind]
    rw [parseForPart_not_for (Tok.punct "::" :: rest) rfl]
    simp only [Option.some_bind]
    rw [parseMoreTargets_not_comma (Tok.punct "::" :: rest) rfl]
    simp only [Option.some_bind]
    rw [parseWhereOpt_not_where (Tok.punct "::" :: rest) rfl]
    simp only [Option.some_bind]
    rw [parseHeaders_not_impl (Tok.punct "::" :: rest) rfl]
    rfl
  exact impl_twice_none _ _ h2 rfl h4

/-- C8: a path-qualified name (`mod::Type`) in target position, in trait
position, or in the generic-parameter list fails to match any
production: the whole invocation fails with no output — the name is not
truncated to its last segment. -/
theorem claim_C8 :
    (∀ (a b : String), ¬ a = "where" → ∀ (body : List (List Tok)) (rest : List Tok),
      impl_twice (Tok.ident "impl" :: Tok.ident a :: Tok.punct "::" ::
        Tok.ident b :: Tok.braces body :: rest) = none) ∧
    (∀ (a b tn : String), ¬ a = "where" →
      ∀ (body : List (List Tok)) (rest : List Tok),
      impl_twice (Tok.ident "impl" :: Tok.ident a :: Tok.punct "::" ::
        Tok.ident b :: Tok.ident "for" :: Tok.ident tn ::
        Tok.braces body :: rest) = none) ∧
    (∀ (a : String) (rest : List Tok),
      impl_twice (Tok.ident "impl" :: Tok.punct "<" :: Tok.ident a ::
        Tok.punct "::" :: rest) = none) := by
  refine ⟨?_, ?_, ?_⟩
  · intro a b ha body rest
    exact qualified_name_fails a ha
      (Tok.ident b :: Tok.braces body :: rest)
  · intro a b tn ha body rest
    exact qualified_name_fails a ha
      (Tok.ident b :: Tok.ident "for" :: Tok.ident tn :: Tok.braces body :: rest)
  · intro a rest
    exact impl_twice_none _ _ rfl rfl rfl

/-- Witness for C8 at `impl m::Type2 { }`, `impl m::Tr for A { }` and
`impl<m::T> A { }`. -/
theorem claim_C8_witness :
    impl_twice [Tok.ident "impl", Tok.ident "m", Tok.punct "::",
      Tok.ident "Type2", Tok.braces []] = none ∧
    impl_twice [Tok.ident "impl", Tok.ident "m", Tok.punct "::", Tok.ident "Tr",
      Tok.ident "for", Tok.ident "A", Tok.braces []] = none ∧
    impl_twice [Tok.ident "impl", Tok.punct "<", Tok.ident "m", Tok.punct "::",
      Tok.ident "T", Tok.punct ">", Tok.ident "A", Tok.braces []] = none :=
  ⟨claim_C8.1 "m" "Type2" (by decide) [] [],
   claim_C8.2.1 "m" "Tr" "A" (by decide) [] [],
   claim_C8.2.2 "m" [Tok.ident "T", Tok.punct ">", Tok.ident "A", Tok.braces []]⟩
